import Mathlib

/-!
Verification of the markdown-editor front end (lexer, parser, AST factory,
traversal) against its natural-language specification.

The definitions below are a shallow embedding of the TypeScript sources:

* `src/unnamed/part_006`              — shared string utilities
  (`isWhitespace`, `isDigit`, `isNewline`, `normalizeNewlines`,
  `getLineColumnFromOffset`);
* `src/packages/lexer/src/lexer.ts`   — `MarkdownLexer`;
* `src/packages/lexer/src/types.ts`   — `TokenType`, `Token`;
* `src/packages/parser/src/parser.ts` — `RecursiveDescentParser`;
* `src/unnamed/part_003`              — `DefaultNodeFactory`;
* `src/unnamed/part_002`              — `ASTTraverser`.

Strings are `List Char`.  The lexer's `tokenize` loop and the parser's
mutually recursive methods are embedded with an explicit fuel parameter:
`none` (lexer) / `ParseRes.out` (parser) means the fuel ran out, and is the
only way a run can fail to produce the result the TypeScript run would
produce; every TypeScript-visible outcome (a token list, a thrown
`ParseError`, a finished tree) is represented exactly.
-/

namespace MdSpec

/-- JavaScript character class `\s` (the `RegExp` whitespace class), used by
`isWhitespace` in `src/unnamed/part_006` via `/^\s$/`.  It contains the ASCII
whitespace characters (space, tab, LF, VT, FF, CR) and the Unicode space
separators recognised by ECMAScript. -/
def isWhitespaceJS (c : Char) : Bool :=
  c = ' ' || c = '\t' || c = '\n' || c = Char.ofNat 0x0b || c = Char.ofNat 0x0c ||
  c = Char.ofNat 0x0d || c = Char.ofNat 0xa0 || c = Char.ofNat 0x1680 ||
  (0x2000 ≤ c.toNat && c.toNat ≤ 0x200a) || c = Char.ofNat 0x2028 ||
  c = Char.ofNat 0x2029 || c = Char.ofNat 0x202f || c = Char.ofNat 0x205f ||
  c = Char.ofNat 0x3000 || c = Char.ofNat 0xfeff

/-- `isDigit` from `src/unnamed/part_006`: `/^[0-9]$/`. -/
def isDigitC (c : Char) : Bool :=
  '0' ≤ c && c ≤ '9'

/-- `isNewline` from `src/unnamed/part_006`: LF or CR. -/
def isNewlineC (c : Char) : Bool :=
  c = '\n' || c = Char.ofNat 0x0d

/-- `normalizeNewlines` from `src/unnamed/part_006`:
`text.replace(/\r\n/g, '\n').replace(/\r/g, '\n')` — every CRLF pair and
every remaining lone CR becomes one LF.  The recursion scans left to right,
which matches the two global replaces. -/
def normalizeNewlines : List Char → List Char
  | [] => []
  | [c] => if c = Char.ofNat 0x0d then ['\n'] else [c]
  | c :: d :: rest =>
    if c = Char.ofNat 0x0d then
      if d = '\n' then '\n' :: normalizeNewlines rest
      else '\n' :: normalizeNewlines (d :: rest)
    else c :: normalizeNewlines (d :: rest)

/-- The loop of `getLineColumnFromOffset` from `src/unnamed/part_006`: walk
characters left to right (at most `offset` of them), incrementing the line
and resetting the column at each LF, starting from the accumulator `p`. -/
def lineColAux : List Char → Nat → Nat × Nat → Nat × Nat
  | _, 0, p => p
  | [], _ + 1, p => p
  | c :: rest, n + 1, p =>
    lineColAux rest n (if c = '\n' then (p.1 + 1, 1) else (p.1, p.2 + 1))

/-- `getLineColumnFromOffset` on an already newline-normalized text (the
function itself normalizes first; every use below passes normalized text):
the 1-based line/column of the character at `offset`. -/
def lineColAt (l : List Char) (offset : Nat) : Nat × Nat :=
  lineColAux l offset (1, 1)

/-- `TokenType` from `src/packages/lexer/src/types.ts` (the full enum). -/
inductive TokenType where
  | document | heading | paragraph | code_block | quote | list | list_item
  | horizontal_rule
  | bold | italic | code | link | image
  | asterisk | backtick | bracket_open | bracket_close | paren_open
  | paren_close | hash | exclamation | greater_than | minus | digit | dot
  | text | whitespace | newline | tab | eof
  | unknown
  deriving DecidableEq, Repr

/-- `Position` from the shared package (`createPosition` in
`src/unnamed/part_005`). -/
structure Position where
  line : Nat
  column : Nat
  offset : Nat
  deriving DecidableEq, Repr

/-- `Token` from `src/packages/lexer/src/types.ts`.  `raw` duplicates
`value` exactly as `createToken` sets it. -/
structure Token where
  type : TokenType
  value : List Char
  position : Position
  length : Nat
  raw : List Char
  deriving DecidableEq, Repr

/-- The mutable lexer state of `MarkdownLexer`: the (already normalized)
input plus the `line`/`column`/`offset` cursor. -/
structure LexSt where
  input : List Char
  line : Nat
  column : Nat
  offset : Nat
  deriving Repr

namespace LexSt

/-- `isAtEnd`. -/
def atEnd (st : LexSt) : Bool :=
  st.input.length ≤ st.offset

/-- The unconsumed input, `input` from index `offset` on. -/
def rest (st : LexSt) : List Char :=
  st.input.drop st.offset

/-- `peek`: the current character, `'\0'` at the end. -/
def peekC (st : LexSt) : Char :=
  st.rest.headD (Char.ofNat 0)

/-- `advance` applied `n` times.  Every scan rule only advances while the
characters it expects remain, so offset never passes the end of input. -/
def adv (st : LexSt) (n : Nat) : LexSt :=
  { st with offset := st.offset + n, column := st.column + n }

end LexSt

/-- `createToken`: the position is the post-consumption cursor pulled back by
`value.length` (column clamped to 1, exactly `Math.max(1, column - len)`).
All the quantities are non-negative in TypeScript, so `Nat` subtraction
agrees. -/
def createToken (st : LexSt) (ty : TokenType) (v : List Char) : Token :=
  { type := ty
    value := v
    position := ⟨st.line, max 1 (st.column - v.length), st.offset - v.length⟩
    length := v.length
    raw := v }

/-- Length of the run of the character `c` at the head of `l` (the
`while (this.peek() === c)` counting loops). -/
def runLen (l : List Char) (c : Char) : Nat :=
  (l.takeWhile (· = c)).length

/-- `scanHash`: consume up to 6 `#`. -/
def scanHash (st : LexSt) : Token × LexSt :=
  let n := min (runLen st.rest '#') 6
  let st2 := st.adv n
  (createToken st2 .hash (List.replicate n '#'), st2)

/-- `scanAsterisk`: one `*` then, if another follows, a 2-character
bold token; otherwise a 1-character asterisk token. -/
def scanAsterisk (st : LexSt) : Token × LexSt :=
  let st1 := st.adv 1
  if st1.peekC = '*' then
    let st2 := st1.adv 1
    (createToken st2 .bold ['*', '*'], st2)
  else
    (createToken st1 .asterisk ['*'], st1)

/-- `scanBacktick`: the whole backtick run; exactly 3 is a code-block token,
anything else a generic backtick token. -/
def scanBacktick (st : LexSt) : Token × LexSt :=
  let n := runLen st.rest (Char.ofNat 96)
  let st2 := st.adv n
  if n = 3 then (createToken st2 .code_block (List.replicate n (Char.ofNat 96)), st2)
  else (createToken st2 .backtick (List.replicate n (Char.ofNat 96)), st2)

/-- One single-character rule (`scanBracketOpen`, `scanDot`, `scanTab`, …). -/
def scanSingle (st : LexSt) (ty : TokenType) (c : Char) : Token × LexSt :=
  let st1 := st.adv 1
  (createToken st1 ty [c], st1)

/-- `scanMinus`: the whole `-` run; length ≥ 3 is a horizontal rule. -/
def scanMinus (st : LexSt) : Token × LexSt :=
  let n := runLen st.rest '-'
  let st2 := st.adv n
  if 3 ≤ n then (createToken st2 .horizontal_rule (List.replicate n '-'), st2)
  else (createToken st2 .minus (List.replicate n '-'), st2)

/-- `scanDigit`: the maximal digit run. -/
def scanDigit (st : LexSt) : Token × LexSt :=
  let ds := st.rest.takeWhile isDigitC
  let st2 := st.adv ds.length
  (createToken st2 .digit ds, st2)

/-- `scanNewline`: consume the LF, then increment `line` and reset `column`
to 1 *before* the token is created — so the token reports the incremented
line. -/
def scanNewline (st : LexSt) : Token × LexSt :=
  let st1 := st.adv 1
  let st2 := { st1 with line := st1.line + 1, column := 1 }
  (createToken st2 .newline ['\n'], st2)

/-- `scanWhitespace`: the maximal run of literal spaces. -/
def scanWhitespace (st : LexSt) : Token × LexSt :=
  let n := runLen st.rest ' '
  let st2 := st.adv n
  (createToken st2 .whitespace (List.replicate n ' '), st2)

/-- `isTextChar`: not one of the dedicated characters, not a newline, not
(JS) whitespace. -/
def isTextChar (c : Char) : Bool :=
  !(c = '#' || c = '*' || c = Char.ofNat 96 || c = '[' || c = ']' || c = '(' ||
    c = ')' || c = '!' || c = '>' || c = '-' || c = '.' ||
    isNewlineC c || isWhitespaceJS c)

/-- `scanText`: the maximal run of text characters.  NOTE: this can be the
*empty* run (for a character such as U+000B that is JS whitespace but has no
dedicated scan rule), in which case the state does not advance. -/
def scanText (st : LexSt) : Token × LexSt :=
  let cs := st.rest.takeWhile isTextChar
  let st2 := st.adv cs.length
  (createToken st2 .text cs, st2)

/-- `scanToken`: dispatch on the current character.  Only called when not at
the end of input. -/
def scanToken (st : LexSt) : Token × LexSt :=
  if st.peekC = '#' then scanHash st
  else if st.peekC = '*' then scanAsterisk st
  else if st.peekC = Char.ofNat 96 then scanBacktick st
  else if st.peekC = '[' then scanSingle st .bracket_open '['
  else if st.peekC = ']' then scanSingle st .bracket_close ']'
  else if st.peekC = '(' then scanSingle st .paren_open '('
  else if st.peekC = ')' then scanSingle st .paren_close ')'
  else if st.peekC = '!' then scanSingle st .exclamation '!'
  else if st.peekC = '>' then scanSingle st .greater_than '>'
  else if st.peekC = '-' then scanMinus st
  else if st.peekC = '.' then scanSingle st .dot '.'
  else if st.peekC = '\n' then scanNewline st
  else if st.peekC = '\t' then scanSingle st .tab '\t'
  else if st.peekC = ' ' then scanWhitespace st
  else if isDigitC st.peekC then scanDigit st
  else scanText st

/-- The `tokenize` loop: scan until the end of input, then append the
zero-length end-of-stream token.  `none` means the fuel ran out before the
loop finished (the TypeScript loop has no bound; a run that never reaches
the end of input returns `none` for every fuel). -/
def lexLoop (st : LexSt) : Nat → Option (List Token)
  | 0 => if st.atEnd then some [createToken st .eof []] else none
  | fuel + 1 =>
    if st.atEnd then some [createToken st .eof []]
    else
      let ts := scanToken st
      (lexLoop ts.2 fuel).map (ts.1 :: ·)

/-- `tokenize` on a raw input string: normalize newlines (done in the
`MarkdownLexer` constructor), start at line 1 / column 1 / offset 0. -/
def tokenizeF (fuel : Nat) (s : List Char) : Option (List Token) :=
  lexLoop ⟨normalizeNewlines s, 1, 1, 0⟩ fuel

/-! ## String helpers used by the parser (JS operations) -/

/-- `startsWith` on character lists: `leadsWith pat l` is true when `pat` is
an initial segment of `l`. -/
def leadsWith : List Char → List Char → Bool
  | [], _ => true
  | _ :: _, [] => false
  | a :: as, b :: bs => a = b && leadsWith as bs

/-- JS `String.prototype.includes`: `hasSub sub l` is true when `sub` occurs
contiguously in `l`. -/
def hasSub (sub : List Char) : List Char → Bool
  | [] => sub.isEmpty
  | l@(_ :: t) => leadsWith sub l || hasSub sub t

/-- JS `split('\n')`: always at least one (possibly empty) piece. -/
def splitNl : List Char → List (List Char)
  | [] => [[]]
  | c :: t =>
    if c = '\n' then [] :: splitNl t
    else
      match splitNl t with
      | h :: r => (c :: h) :: r
      | [] => [[c]]

/-- JS `Array.prototype.join('\n')`. -/
def joinNl : List (List Char) → List Char
  | [] => []
  | [l] => l
  | l :: r => l ++ '\n' :: joinNl r

/-- JS `String.prototype.trim` (strips the `\s` class from both ends). -/
def trimJS (l : List Char) : List Char :=
  ((l.dropWhile isWhitespaceJS).reverse.dropWhile isWhitespaceJS).reverse

/-- The test `value.match(/^\d+\./) !== null` from `parseList` /
`parseListItem`: one or more leading digits followed by a dot. -/
def hasOrdMarker (v : List Char) : Bool :=
  let ds := v.takeWhile isDigitC
  !ds.isEmpty && v.getD ds.length ' ' = '.'

/-- Matching `\[([^\]]*)\]\(([^)]*)\)` at the head of `l`: bracketed text
(no `]`), then `(`, then url (no `)`), then `)`.  Returns (text, url). -/
def linkMatchAt (l : List Char) : Option (List Char × List Char) :=
  match l with
  | '[' :: r =>
    let txt := r.takeWhile (· ≠ ']')
    (match r.drop txt.length with
     | ']' :: '(' :: r2 =>
       let url := r2.takeWhile (· ≠ ')')
       (match r2.drop url.length with
        | ')' :: _ => some (txt, url)
        | _ => none)
     | _ => none)
  | _ => none

/-- JS `value.match(/\[([^\]]*)\]\(([^)]*)\)/)`: first position (scanning
left to right) where the pattern matches; the character classes are greedy
and cannot backtrack usefully, so matching at a position is deterministic. -/
def linkSearch : List Char → Option (List Char × List Char)
  | [] => none
  | l@(_ :: t) =>
    match linkMatchAt l with
    | some r => some r
    | none => linkSearch t

/-- Matching `!\[([^\]]*)\]\(([^)]*)\)` at the head of `l`. -/
def imageMatchAt (l : List Char) : Option (List Char × List Char) :=
  match l with
  | '!' :: r => linkMatchAt r
  | _ => none

/-- JS `value.match(/!\[([^\]]*)\]\(([^)]*)\)/)`. -/
def imageSearch : List Char → Option (List Char × List Char)
  | [] => none
  | l@(_ :: t) =>
    match imageMatchAt l with
    | some r => some r
    | none => imageSearch t

/-! ## The AST node model (`src/packages/ast/src/nodes.ts`) as a pure tree

The TypeScript nodes carry a mutable `parent` back-reference, which cannot
be part of an inductive value; it is modelled separately by the arena
semantics of the factory further down (`ARec`, `buildNode`).  Everything
else — kind, kind-specific payload, children, position — is here. -/

inductive PNode where
  | document (children : List PNode) (pos : Position)
  | heading (level : Nat) (children : List PNode) (pos : Position)
  | paragraph (children : List PNode) (pos : Position)
  | code_block (value : List Char) (language : Option (List Char)) (pos : Position)
  | quote (children : List PNode) (pos : Position)
  | list (ordered : Bool) (start : Option Nat) (marker : List Char)
         (children : List PNode) (pos : Position)
  | list_item (checked : Option Bool) (children : List PNode) (pos : Position)
  | horizontal_rule (pos : Position)
  | text (value : List Char) (pos : Position)
  | bold (children : List PNode) (pos : Position)
  | italic (children : List PNode) (pos : Position)
  | code (value : List Char) (pos : Position)
  | link (url : List Char) (children : List PNode) (pos : Position)
  | image (url : List Char) (alt : List Char) (pos : Position)
  | newline (pos : Position)
  deriving Repr

namespace PNode

/-- The `type` field of a node (the node kinds reuse the `TokenType`
enumeration in the TypeScript sources). -/
def ntype : PNode → TokenType
  | document .. => .document
  | heading .. => .heading
  | paragraph .. => .paragraph
  | code_block .. => .code_block
  | quote .. => .quote
  | list .. => .list
  | list_item .. => .list_item
  | horizontal_rule .. => .horizontal_rule
  | text .. => .text
  | bold .. => .bold
  | italic .. => .italic
  | code .. => .code
  | link .. => .link
  | image .. => .image
  | newline .. => .newline

/-- The optional `value` field (`undefined` reads as the empty string at the
use site `inline.value || ''`). -/
def nvalue : PNode → List Char
  | text v _ => v
  | code v _ => v
  | code_block v _ _ => v
  | _ => []

/-- The `children` array (empty for leaf kinds whose `children` is
`undefined`). -/
def childrenOf : PNode → List PNode
  | document cs _ => cs
  | heading _ cs _ => cs
  | paragraph cs _ => cs
  | quote cs _ => cs
  | list _ _ _ cs _ => cs
  | list_item _ cs _ => cs
  | bold cs _ => cs
  | italic cs _ => cs
  | link _ cs _ => cs
  | _ => []

end PNode

/-! ## The node factory (`DefaultNodeFactory`, `src/unnamed/part_003`)

Each `create*` returns the fully populated node; the `setParentChild` side
effect on the supplied children is the subject of the arena model below. -/

def createDocument (children : List PNode) (pos : Position) : PNode :=
  .document children pos

def createHeading (level : Nat) (children : List PNode) (pos : Position) : PNode :=
  .heading level children pos

def createParagraph (children : List PNode) (pos : Position) : PNode :=
  .paragraph children pos

def createCodeBlock (value : List Char) (language : Option (List Char))
    (pos : Position) : PNode :=
  .code_block value language pos

def createQuote (children : List PNode) (pos : Position) : PNode :=
  .quote children pos

/-- `createList` also fills `start` (1 for ordered lists) and the marker
glyph (`'1.'` / `'-'`). -/
def createList (ordered : Bool) (children : List PNode) (pos : Position) : PNode :=
  .list ordered (if ordered then some 1 else none)
    (if ordered then ['1', '.'] else ['-']) children pos

def createListItem (children : List PNode) (pos : Position)
    (checked : Option Bool) : PNode :=
  .list_item checked children pos

def createHorizontalRule (pos : Position) : PNode :=
  .horizontal_rule pos

def createText (value : List Char) (pos : Position) : PNode :=
  .text value pos

def createBold (children : List PNode) (pos : Position) : PNode :=
  .bold children pos

def createItalic (children : List PNode) (pos : Position) : PNode :=
  .italic children pos

def createCode (value : List Char) (pos : Position) : PNode :=
  .code value pos

def createLink (url : List Char) (children : List PNode) (pos : Position) : PNode :=
  .link url children pos

def createImage (url : List Char) (alt : List Char) (pos : Position) : PNode :=
  .image url alt pos

def createNewLine (pos : Position) : PNode :=
  .newline pos

/-! ## The recursive-descent parser
(`RecursiveDescentParser`, `src/packages/parser/src/parser.ts`)

State is the cursor `cur` into the fixed token array `tks`; each method
returns the produced value together with the cursor after it.  A thrown
`ParseError` (from `consume`) is `ParseRes.err`; `ParseRes.out` is fuel
exhaustion and has no TypeScript counterpart.  The `while` loops of the
source are the `...Loop` functions. -/

inductive ParseRes (α : Type) where
  | out : ParseRes α
  | err : ParseRes α
  | ok : α → Nat → ParseRes α
  deriving Repr

/-- Stand-in for the `undefined` a JavaScript out-of-bounds array read
yields; every token access in the parser is guarded, so its fields are
never inspected. -/
def dfltTok : Token :=
  ⟨.unknown, [], ⟨0, 0, 0⟩, 0, []⟩

/-- `this.tokens[this.current]` (also used for other indices). -/
def peekT (tks : List Token) (cur : Nat) : Token :=
  tks.getD cur dfltTok

/-- `isAtEnd`. -/
def atEndT (tks : List Token) (cur : Nat) : Bool :=
  tks.length ≤ cur

/-- `check`: false at the end, else compare the current token's type. -/
def checkT (tks : List Token) (ty : TokenType) (cur : Nat) : Bool :=
  !atEndT tks cur && (peekT tks cur).type = ty

/-- `advance`: step unless at the end, and return the token just passed
(`previous()`). -/
def advanceT (tks : List Token) (cur : Nat) : Token × Nat :=
  if atEndT tks cur then (peekT tks (cur - 1), cur) else (peekT tks cur, cur + 1)

/-- `consume`: advance when the current token has the expected type,
otherwise throw `ParseError`. -/
def consumeT (tks : List Token) (ty : TokenType) (cur : Nat) : ParseRes Token :=
  if checkT tks ty cur then .ok (peekT tks cur) (cur + 1) else .err

/-- `isBlockEnd`: at the end, or one of the block-delimiting token types. -/
def isBlockEndT (tks : List Token) (cur : Nat) : Bool :=
  atEndT tks cur ||
    (let t := (peekT tks cur).type
     t = .heading || t = .code_block || t = .quote || t = .list_item ||
     t = .horizontal_rule || t = .newline)

/-- `if (inline) children.push(inline)`. -/
def consOpt (oi : Option PNode) (l : List PNode) : List PNode :=
  match oi with
  | some i => i :: l
  | none => l

/-- `getCurrentIndent`: the whitespace token just before the cursor (if
any), two spaces per level. -/
def curIndentT (tks : List Token) (cur : Nat) : Nat :=
  if 0 < cur then
    let prev := peekT tks (cur - 1)
    if prev.type = .whitespace then prev.value.length / 2 else 0
  else 0

/-- `parseText`: unconditionally advance and wrap the token's literal in a
text node. -/
def parseTextT (tks : List Token) (cur : Nat) : PNode × Nat :=
  let a := advanceT tks cur
  (createText a.1.value a.1.position, a.2)

/-- `parseNewline`. -/
def parseNewlineT (tks : List Token) (cur : Nat) : ParseRes PNode :=
  match consumeT tks .newline cur with
  | .out => .out
  | .err => .err
  | .ok tok cur1 => .ok (createNewLine tok.position) cur1

/-- `parseHorizontalRule`. -/
def parseHorizontalRuleT (tks : List Token) (cur : Nat) : ParseRes PNode :=
  match consumeT tks .horizontal_rule cur with
  | .out => .out
  | .err => .err
  | .ok tok cur1 => .ok (createHorizontalRule tok.position) cur1

/-- `parseCodeBlock`: split the token's literal on newlines; the first
line's tail after a leading ``` fence is the (possibly empty) language; the
lines strictly between the first and the last are the code. -/
def parseCodeBlockT (tks : List Token) (cur : Nat) : ParseRes PNode :=
  match consumeT tks .code_block cur with
  | .out => .out
  | .err => .err
  | .ok tok cur1 =>
    let lines := splitNl tok.value
    let firstLine := lines.headD []
    let language :=
      if leadsWith (List.replicate 3 (Char.ofNat 96)) firstLine then
        some (trimJS (firstLine.drop 3))
      else none
    let codev := joinNl ((lines.drop 1).dropLast)
    .ok (createCodeBlock codev language tok.position) cur1

/-- `parseLink` (for a pre-assembled `link`-typed token): pull text and url
out of the literal with the link regular expression, defaulting to empty
strings. -/
def parseLinkT (tks : List Token) (cur : Nat) : ParseRes PNode :=
  match consumeT tks .link cur with
  | .out => .out
  | .err => .err
  | .ok tok cur1 =>
    let m := linkSearch tok.value
    let txt := (m.map Prod.fst).getD []
    let url := (m.map Prod.snd).getD []
    .ok (createLink url [createText txt tok.position] tok.position) cur1

/-- `parseImage` (for a pre-assembled `image`-typed token). -/
def parseImageT (tks : List Token) (cur : Nat) : ParseRes PNode :=
  match consumeT tks .image cur with
  | .out => .out
  | .err => .err
  | .ok tok cur1 =>
    let m := imageSearch tok.value
    let alt := (m.map Prod.fst).getD []
    let url := (m.map Prod.snd).getD []
    .ok (createImage url alt tok.position) cur1

/-- The task-list test of `parseListItem`: `[x]` / `[X]` → checked,
`[ ]` → unchecked, else absent. -/
def checkedOf (v : List Char) : Option Bool :=
  if hasSub ['[', 'x', ']'] v || hasSub ['[', 'X', ']'] v then some true
  else if hasSub ['[', ' ', ']'] v then some false
  else none

mutual

/-- The `parseBlocks` loop: skip newline tokens, otherwise parse one block,
until the end of the token array. -/
def blocksLoopF (tks : List Token) : Nat → Nat → ParseRes (List PNode)
  | 0, _ => .out
  | fuel + 1, cur =>
    if atEndT tks cur then .ok [] cur
    else if checkT tks .newline cur then blocksLoopF tks fuel (cur + 1)
    else
      match parseBlockF tks fuel cur with
      | .out => .out
      | .err => .err
      | .ok ob cur2 =>
        match blocksLoopF tks fuel cur2 with
        | .out => .out
        | .err => .err
        | .ok bs cur3 => .ok (consOpt ob bs) cur3
  termination_by structural fuel cur => fuel

/-- `parseBlock`: dispatch on the current token type. -/
def parseBlockF (tks : List Token) : Nat → Nat → ParseRes (Option PNode)
  | 0, _ => .out
  | fuel + 1, cur =>
    if atEndT tks cur then .ok none cur
    else
      match (peekT tks cur).type with
      | .heading =>
        match parseHeadingF tks fuel cur with
        | .out => .out | .err => .err | .ok b c => .ok (some b) c
      | .code_block =>
        match parseCodeBlockT tks cur with
        | .out => .out | .err => .err | .ok b c => .ok (some b) c
      | .quote =>
        match parseQuoteF tks fuel cur with
        | .out => .out | .err => .err | .ok b c => .ok (some b) c
      | .list_item =>
        match parseListF tks fuel cur with
        | .out => .out | .err => .err | .ok b c => .ok (some b) c
      | .horizontal_rule =>
        match parseHorizontalRuleT tks cur with
        | .out => .out | .err => .err | .ok b c => .ok (some b) c
      | _ =>
        match parseParagraphF tks fuel cur with
        | .out => .out | .err => .err | .ok b c => .ok (some b) c
  termination_by structural fuel cur => fuel

/-- `parseHeading`: level is the heading-mark literal's length (`|| 1` when
it is zero), body one inline run. -/
def parseHeadingF (tks : List Token) : Nat → Nat → ParseRes PNode
  | 0, _ => .out
  | fuel + 1, cur =>
    match consumeT tks .heading cur with
    | .out => .out
    | .err => .err
    | .ok tok cur1 =>
      let level := if tok.value.length = 0 then 1 else tok.value.length
      match inlinesLoopF tks fuel cur1 with
      | .out => .out
      | .err => .err
      | .ok children cur2 => .ok (createHeading level children tok.position) cur2

/-- `parseParagraph`: an inline run starting at the current token. -/
def parseParagraphF (tks : List Token) : Nat → Nat → ParseRes PNode
  | 0, _ => .out
  | fuel + 1, cur =>
    let startTok := peekT tks cur
    match inlinesLoopF tks fuel cur with
    | .out => .out
    | .err => .err
    | .ok children cur2 => .ok (createParagraph children startTok.position) cur2

/-- `parseQuote`: consume `>` then recursively parse a block sequence. -/
def parseQuoteF (tks : List Token) : Nat → Nat → ParseRes PNode
  | 0, _ => .out
  | fuel + 1, cur =>
    match consumeT tks .quote cur with
    | .out => .out
    | .err => .err
    | .ok tok cur1 =>
      match blocksLoopF tks fuel cur1 with
      | .out => .out
      | .err => .err
      | .ok children cur2 => .ok (createQuote children tok.position) cur2
  termination_by structural fuel cur => fuel

/-- `parseList`: ordered is decided from the first item's literal; items by
`parseNestedListItems` from level 0. -/
def parseListF (tks : List Token) : Nat → Nat → ParseRes PNode
  | 0, _ => .out
  | fuel + 1, cur =>
    let firstTok := peekT tks cur
    let ordered := hasOrdMarker firstTok.value
    match nestedItemsF tks fuel 0 cur with
    | .out => .out
    | .err => .err
    | .ok items cur2 => .ok (createList ordered items firstTok.position) cur2

/-- The `parseNestedListItems` loop: collect list-item tokens while the
indent has not dropped below `baseIndent`. -/
def nestedItemsF (tks : List Token) : Nat → Nat → Nat → ParseRes (List PNode)
  | 0, _, _ => .out
  | fuel + 1, baseIndent, cur =>
    if !atEndT tks cur && checkT tks .list_item cur then
      if curIndentT tks cur < baseIndent then .ok [] cur
      else
        match parseListItemF tks fuel cur with
        | .out => .out
        | .err => .err
        | .ok item cur2 =>
          match nestedItemsF tks fuel baseIndent cur2 with
          | .out => .out
          | .err => .err
          | .ok items cur3 => .ok (item :: items) cur3
    else .ok [] cur
  termination_by structural fuel b cur => fuel

/-- `parseListItem`: consume the item token, read the task checkbox from
its literal, wrap the inline run in a paragraph, then attach a deeper
nested list (if the next item's indent grows) after it. -/
def parseListItemF (tks : List Token) : Nat → Nat → ParseRes PNode
  | 0, _ => .out
  | fuel + 1, cur =>
    let currentIndent := curIndentT tks cur
    match consumeT tks .list_item cur with
    | .out => .out
    | .err => .err
    | .ok tok cur1 =>
      let checked := checkedOf tok.value
      match inlinesLoopF tks fuel cur1 with
      | .out => .out
      | .err => .err
      | .ok inls cur2 =>
        let children1 : List PNode :=
          if 0 < inls.length then [createParagraph inls tok.position] else []
        if !atEndT tks cur2 && checkT tks .list_item cur2 then
          if currentIndent < curIndentT tks cur2 then
            match nestedItemsF tks fuel (curIndentT tks cur2) cur2 with
            | .out => .out
            | .err => .err
            | .ok nested cur3 =>
              if 0 < nested.length then
                let firstChildTok := peekT tks (cur3 - nested.length)
                let childOrd := hasOrdMarker firstChildTok.value
                .ok (createListItem
                      (children1 ++ [createList childOrd nested tok.position])
                      tok.position checked) cur3
              else .ok (createListItem children1 tok.position checked) cur3
          else .ok (createListItem children1 tok.position checked) cur2
        else .ok (createListItem children1 tok.position checked) cur2
  termination_by structural fuel cur => fuel

/-- The shared loop of `parseInlines` and of `parseParagraph`: inline
elements until a block end. -/
def inlinesLoopF (tks : List Token) : Nat → Nat → ParseRes (List PNode)
  | 0, _ => .out
  | fuel + 1, cur =>
    if isBlockEndT tks cur then .ok [] cur
    else
      match parseInlineF tks fuel cur with
      | .out => .out
      | .err => .err
      | .ok oi cur2 =>
        match inlinesLoopF tks fuel cur2 with
        | .out => .out
        | .err => .err
        | .ok is cur3 => .ok (consOpt oi is) cur3
  termination_by structural fuel cur => fuel

/-- `parseInline`: dispatch on the current token type; `[` and `!` first
attempt the tentative link/image rules and fall back to plain text. -/
def parseInlineF (tks : List Token) : Nat → Nat → ParseRes (Option PNode)
  | 0, _ => .out
  | fuel + 1, cur =>
    if atEndT tks cur then .ok none cur
    else
      match (peekT tks cur).type with
      | .bold =>
        match parseBoldF tks fuel cur with
        | .out => .out | .err => .err | .ok n c => .ok (some n) c
      | .italic =>
        match parseItalicF tks fuel cur with
        | .out => .out | .err => .err | .ok n c => .ok (some n) c
      | .code =>
        match parseCodeSpanF tks fuel cur with
        | .out => .out | .err => .err | .ok n c => .ok (some n) c
      | .link =>
        match parseLinkT tks cur with
        | .out => .out | .err => .err | .ok n c => .ok (some n) c
      | .bracket_open =>
        match tryParseLinkF tks fuel cur with
        | .out => .out
        | .err => .err
        | .ok (some l) c => .ok (some l) c
        | .ok none c =>
          let t := parseTextT tks c
          .ok (some t.1) t.2
      | .exclamation =>
        match tryParseImageF tks fuel cur with
        | .out => .out
        | .err => .err
        | .ok (some i) c => .ok (some i) c
        | .ok none c =>
          let t := parseTextT tks c
          .ok (some t.1) t.2
      | .image =>
        match parseImageT tks cur with
        | .out => .out | .err => .err | .ok n c => .ok (some n) c
      | .newline =>
        match parseNewlineT tks cur with
        | .out => .out | .err => .err | .ok n c => .ok (some n) c
      | _ =>
        let t := parseTextT tks cur
        .ok (some t.1) t.2
  termination_by structural fuel cur => fuel

/-- `parseBold`: delimited span; on a missing closing mark, rewind to the
opening mark, advance one token past it and degrade to the literal `**`. -/
def parseBoldF (tks : List Token) : Nat → Nat → ParseRes PNode
  | 0, _ => .out
  | fuel + 1, cur =>
    match consumeT tks .bold cur with
    | .out => .out
    | .err => .err
    | .ok startTok cur1 =>
      match spanBoldLoopF tks fuel cur1 with
      | .out => .out
      | .err => .err
      | .ok children cur2 =>
        if checkT tks .bold cur2 then
          match consumeT tks .bold cur2 with
          | .out => .out
          | .err => .err
          | .ok _ cur3 => .ok (createBold children startTok.position) cur3
        else
          .ok (createText ['*', '*'] startTok.position) (advanceT tks cur).2
  termination_by structural fuel cur => fuel

/-- The collection loop of `parseBold`. -/
def spanBoldLoopF (tks : List Token) : Nat → Nat → ParseRes (List PNode)
  | 0, _ => .out
  | fuel + 1, cur =>
    if !checkT tks .bold cur && !checkT tks .newline cur && !atEndT tks cur then
      match parseInlineF tks fuel cur with
      | .out => .out
      | .err => .err
      | .ok oi cur2 =>
        match spanBoldLoopF tks fuel cur2 with
        | .out => .out
        | .err => .err
        | .ok is cur3 => .ok (consOpt oi is) cur3
    else .ok [] cur
  termination_by structural fuel cur => fuel

/-- `parseItalic`: same shape as `parseBold` with the `*` marker. -/
def parseItalicF (tks : List Token) : Nat → Nat → ParseRes PNode
  | 0, _ => .out
  | fuel + 1, cur =>
    match consumeT tks .italic cur with
    | .out => .out
    | .err => .err
    | .ok startTok cur1 =>
      match spanItalicLoopF tks fuel cur1 with
      | .out => .out
      | .err => .err
      | .ok children cur2 =>
        if checkT tks .italic cur2 then
          match consumeT tks .italic cur2 with
          | .out => .out
          | .err => .err
          | .ok _ cur3 => .ok (createItalic children startTok.position) cur3
        else
          .ok (createText ['*'] startTok.position) (advanceT tks cur).2
  termination_by structural fuel cur => fuel

/-- The collection loop of `parseItalic`. -/
def spanItalicLoopF (tks : List Token) : Nat → Nat → ParseRes (List PNode)
  | 0, _ => .out
  | fuel + 1, cur =>
    if !checkT tks .italic cur && !checkT tks .newline cur && !atEndT tks cur then
      match parseInlineF tks fuel cur with
      | .out => .out
      | .err => .err
      | .ok oi cur2 =>
        match spanItalicLoopF tks fuel cur2 with
        | .out => .out
        | .err => .err
        | .ok is cur3 => .ok (consOpt oi is) cur3
    else .ok [] cur
  termination_by structural fuel cur => fuel

/-- `parseCode` (inline code span): like `parseBold` but the collected
inline nodes contribute their `value` strings. -/
def parseCodeSpanF (tks : List Token) : Nat → Nat → ParseRes PNode
  | 0, _ => .out
  | fuel + 1, cur =>
    match consumeT tks .code cur with
    | .out => .out
    | .err => .err
    | .ok startTok cur1 =>
      match spanCodeLoopF tks fuel cur1 with
      | .out => .out
      | .err => .err
      | .ok str cur2 =>
        if checkT tks .code cur2 then
          match consumeT tks .code cur2 with
          | .out => .out
          | .err => .err
          | .ok _ cur3 => .ok (createCode str startTok.position) cur3
        else
          .ok (createText [Char.ofNat 96] startTok.position) (advanceT tks cur).2
  termination_by structural fuel cur => fuel

/-- The collection loop of `parseCode`: `childrenStr += inline.value || ''`. -/
def spanCodeLoopF (tks : List Token) : Nat → Nat → ParseRes (List Char)
  | 0, _ => .out
  | fuel + 1, cur =>
    if !checkT tks .code cur && !checkT tks .newline cur && !atEndT tks cur then
      match parseInlineF tks fuel cur with
      | .out => .out
      | .err => .err
      | .ok oi cur2 =>
        match spanCodeLoopF tks fuel cur2 with
        | .out => .out
        | .err => .err
        | .ok s cur3 =>
          .ok ((match oi with | some i => i.nvalue | none => []) ++ s) cur3
    else .ok [] cur
  termination_by structural fuel cur => fuel

/-- `tryParseLink`: tentative `[ text ] ( url )`; every failure (including a
thrown error, caught by the surrounding `try`) restores the entry cursor and
yields `null`. -/
def tryParseLinkF (tks : List Token) : Nat → Nat → ParseRes (Option PNode)
  | 0, _ => .out
  | fuel + 1, cur =>
    let startTok := peekT tks cur
    if !checkT tks .bracket_open cur then .ok none cur
    else
      match linkTextLoopF tks fuel ((advanceT tks cur).2) with
      | .out => .out
      | .err => .ok none cur
      | .ok none _ => .ok none cur
      | .ok (some tns) cur2 =>
        if !checkT tks .bracket_close cur2 then .ok none cur
        else
          let cur3 := (advanceT tks cur2).2
          if !checkT tks .paren_open cur3 then .ok none cur
          else
            match urlLoopF tks fuel ((advanceT tks cur3).2) with
            | .out => .out
            | .err => .ok none cur
            | .ok none _ => .ok none cur
            | .ok (some url) cur5 =>
              if !checkT tks .paren_close cur5 then .ok none cur
              else
                .ok (some (createLink url tns startTok.position))
                  ((advanceT tks cur5).2)
  termination_by structural fuel cur => fuel

/-- The text-collection loop of `tryParseLink`: up to `]`, aborting
(`none`) on a newline; a nested `[` or `!` is downgraded to plain text. -/
def linkTextLoopF (tks : List Token) : Nat → Nat → ParseRes (Option (List PNode))
  | 0, _ => .out
  | fuel + 1, cur =>
    if atEndT tks cur || checkT tks .bracket_close cur then .ok (some []) cur
    else if checkT tks .newline cur then .ok none cur
    else
      let tok := peekT tks cur
      if tok.type = .bracket_open || tok.type = .exclamation then
        let a := advanceT tks cur
        match linkTextLoopF tks fuel a.2 with
        | .out => .out
        | .err => .err
        | .ok none c => .ok none c
        | .ok (some ns) c => .ok (some (createText a.1.value a.1.position :: ns)) c
      else
        match parseInlineF tks fuel cur with
        | .out => .out
        | .err => .err
        | .ok oi cur2 =>
          match linkTextLoopF tks fuel cur2 with
          | .out => .out
          | .err => .err
          | .ok none c => .ok none c
          | .ok (some ns) c => .ok (some (consOpt oi ns)) c
  termination_by structural fuel cur => fuel

/-- The url- (and image-src-) collection loop: concatenate raw token
literals up to `)`, aborting on a newline. -/
def urlLoopF (tks : List Token) : Nat → Nat → ParseRes (Option (List Char))
  | 0, _ => .out
  | fuel + 1, cur =>
    if atEndT tks cur || checkT tks .paren_close cur then .ok (some []) cur
    else if checkT tks .newline cur then .ok none cur
    else
      let a := advanceT tks cur
      match urlLoopF tks fuel a.2 with
      | .out => .out
      | .err => .err
      | .ok none c => .ok none c
      | .ok (some u) c => .ok (some (a.1.value ++ u)) c
  termination_by structural fuel cur => fuel

/-- The alt-collection loop of `tryParseImage`: concatenate raw token
literals up to `]`, aborting on a newline. -/
def altLoopF (tks : List Token) : Nat → Nat → ParseRes (Option (List Char))
  | 0, _ => .out
  | fuel + 1, cur =>
    if atEndT tks cur || checkT tks .bracket_close cur then .ok (some []) cur
    else if checkT tks .newline cur then .ok none cur
    else
      let a := advanceT tks cur
      match altLoopF tks fuel a.2 with
      | .out => .out
      | .err => .err
      | .ok none c => .ok none c
      | .ok (some u) c => .ok (some (a.1.value ++ u)) c
  termination_by structural fuel cur => fuel

/-- `tryParseImage`: tentative `! [ alt ] ( src )` with flat text alt. -/
def tryParseImageF (tks : List Token) : Nat → Nat → ParseRes (Option PNode)
  | 0, _ => .out
  | fuel + 1, cur =>
    let startTok := peekT tks cur
    if !checkT tks .exclamation cur then .ok none cur
    else
      let cur1 := (advanceT tks cur).2
      if !checkT tks .bracket_open cur1 then .ok none cur
      else
        match altLoopF tks fuel ((advanceT tks cur1).2) with
        | .out => .out
        | .err => .ok none cur
        | .ok none _ => .ok none cur
        | .ok (some alt) cur2 =>
          if !checkT tks .bracket_close cur2 then .ok none cur
          else
            let cur3 := (advanceT tks cur2).2
            if !checkT tks .paren_open cur3 then .ok none cur
            else
              match urlLoopF tks fuel ((advanceT tks cur3).2) with
              | .out => .out
              | .err => .ok none cur
              | .ok none _ => .ok none cur
              | .ok (some src) cur5 =>
                if !checkT tks .paren_close cur5 then .ok none cur
                else
                  .ok (some (createImage src alt startTok.position))
                    ((advanceT tks cur5).2)

end

/-- `parse`: run the block loop from cursor 0 and wrap the blocks in the
document root (position line 1, column 1, offset 0). -/
def parseF (tks : List Token) (fuel : Nat) : ParseRes PNode :=
  match blocksLoopF tks fuel 0 with
  | .out => .out
  | .err => .err
  | .ok bs cur => .ok (createDocument bs ⟨1, 1, 0⟩) cur

/-- The whole front end, `parse(tokenize(s))`, with one fuel bound for both
stages. -/
def parsePipeline (fuel : Nat) (s : List Char) : ParseRes PNode :=
  match tokenizeF fuel s with
  | some ts => parseF ts fuel
  | none => .out

/-- Concatenation of token literals (for the losslessness property). -/
def concatValues (ts : List Token) : List Char :=
  (ts.map Token.value).flatten

/-- Observation on a parse outcome: the kinds of the root's children. -/
def docChildKinds (r : ParseRes PNode) : Option (List TokenType) :=
  match r with
  | .ok d _ => some (d.childrenOf.map PNode.ntype)
  | _ => none

/-- Observation on a parse outcome: the root's children. -/
def docChildren (r : ParseRes PNode) : Option (List PNode) :=
  match r with
  | .ok d _ => some d.childrenOf
  | _ => none

/-- Sample fenced-code-block input: ```` ``` ````, newline, `b`, newline,
```` ``` ````. -/
def fencedSample : List Char :=
  List.replicate 3 (Char.ofNat 96) ++ '\n' :: 'b' :: '\n' :: List.replicate 3 (Char.ofNat 96)

/-! ## Arena semantics of the factory's parent/child linkage

The TypeScript nodes are heap objects; `child.parent = parent` in
`DefaultNodeFactory.setParentChild` is a mutation, and the invariant of the
spec is about *object identity*.  We model the heap as an arena: a list of
records indexed by allocation order.  `allocA` is one `create*` call — a
fresh record whose `parent` starts `undefined`, followed by
`setParentChild`, which mutates the supplied children's parent field to the
new node's identity.  `buildNode` replays, bottom-up and left-to-right,
exactly the factory calls that create the nodes of a parsed tree (the
parser builds each node after its children and hands each node to exactly
one later `create*` call). -/

structure ARec where
  type : TokenType
  parentId : Option Nat
  childIds : List Nat
  deriving Repr, DecidableEq

/-- Stand-in record for an out-of-range read (never relevant: all ids in
the arena are in range). -/
def dfltRec : ARec :=
  ⟨.unknown, none, []⟩

/-- `child.parent = parent` for one child (by arena id). -/
def setParentA (a : List ARec) (c : Nat) (pid : Nat) : List ARec :=
  a.set c { a.getD c dfltRec with parentId := some pid }

/-- `setParentChild`: `children.forEach(child => child.parent = parent)`. -/
def setParentsA (a : List ARec) (pid : Nat) (cs : List Nat) : List ARec :=
  cs.foldl (fun acc c => setParentA acc c pid) a

/-- One factory `create*` call: allocate the node record (parent
`undefined`, the supplied children), then run `setParentChild`. -/
def allocA (a : List ARec) (ty : TokenType) (cs : List Nat) : List ARec × Nat :=
  let id := a.length
  (setParentsA (a ++ [(ARec.mk ty none cs)]) id cs, id)

mutual

/-- Replay the factory calls that build a parsed tree, children before
parent, returning the root's arena id. -/
def buildNode : PNode → List ARec → List ARec × Nat
  | .document cs _, a => buildStep .document cs a
  | .heading _ cs _, a => buildStep .heading cs a
  | .paragraph cs _, a => buildStep .paragraph cs a
  | .code_block _ _ _, a => allocA a .code_block []
  | .quote cs _, a => buildStep .quote cs a
  | .list _ _ _ cs _, a => buildStep .list cs a
  | .list_item _ cs _, a => buildStep .list_item cs a
  | .horizontal_rule _, a => allocA a .horizontal_rule []
  | .text _ _, a => allocA a .text []
  | .bold cs _, a => buildStep .bold cs a
  | .italic cs _, a => buildStep .italic cs a
  | .code _ _, a => allocA a .code []
  | .link _ cs _, a => buildStep .link cs a
  | .image _ _ _, a => allocA a .image []
  | .newline _, a => allocA a .newline []

/-- Build a children array left to right. -/
def buildList : List PNode → List ARec → List ARec × List Nat
  | [], a => (a, [])
  | n :: r, a =>
    let s1 := buildNode n a
    let s2 := buildList r s1.1
    (s2.1, s1.2 :: s2.2)

/-- Build the children, then run the parent's `create*` call. -/
def buildStep (ty : TokenType) (cs : List PNode) (a : List ARec) :
    List ARec × Nat :=
  let s := buildList cs a
  allocA s.1 ty s.2

end

/-- The §3 tree invariant on the arena heap: every child id recorded in any
node's children array is in range, and that child's parent back-reference
is the recording node itself (same arena id = same object). -/
def parentOk (a : List ARec) : Prop :=
  ∀ i, i < a.length → ∀ c ∈ (a.getD i dfltRec).childIds,
    c < a.length ∧ (a.getD c dfltRec).parentId = some i

/-! ## The visitor and traverser (`ASTTraverser`, `src/unnamed/part_002`)

A TypeScript callback may be absent (the field is optional) and, when
present, may return `undefined`; a callback is therefore
`Option (PNode → Option T)`. -/

structure Visitor (T : Type) where
  visitDocument : Option (PNode → Option T) := none
  visitHeading : Option (PNode → Option T) := none
  visitParagraph : Option (PNode → Option T) := none
  visitCodeBlock : Option (PNode → Option T) := none
  visitQuote : Option (PNode → Option T) := none
  visitList : Option (PNode → Option T) := none
  visitListItem : Option (PNode → Option T) := none
  visitHorizontalRule : Option (PNode → Option T) := none
  visitText : Option (PNode → Option T) := none
  visitBold : Option (PNode → Option T) := none
  visitItalic : Option (PNode → Option T) := none
  visitCode : Option (PNode → Option T) := none
  visitLink : Option (PNode → Option T) := none
  visitImage : Option (PNode → Option T) := none
  visitNewLine : Option (PNode → Option T) := none
  visitNode : Option (PNode → Option T) := none

/-- The kind-specific callback the `switch` of `ASTTraverser.visitNode`
selects for a node. -/
def specificCb {T : Type} (v : Visitor T) (n : PNode) : Option (PNode → Option T) :=
  match n.ntype with
  | .document => v.visitDocument
  | .heading => v.visitHeading
  | .paragraph => v.visitParagraph
  | .code_block => v.visitCodeBlock
  | .quote => v.visitQuote
  | .list => v.visitList
  | .list_item => v.visitListItem
  | .horizontal_rule => v.visitHorizontalRule
  | .text => v.visitText
  | .bold => v.visitBold
  | .italic => v.visitItalic
  | .code => v.visitCode
  | .link => v.visitLink
  | .image => v.visitImage
  | .newline => v.visitNewLine
  | _ => none

/-- `result = visitor.visitX?.(node)`: `undefined` when the kind-specific
callback is absent or itself returned `undefined`. -/
def specificResult {T : Type} (v : Visitor T) (n : PNode) : Option T :=
  match specificCb v n with
  | some f => f n
  | none => none

/-- `return result !== undefined ? result : visitor.visitNode?.(node)`. -/
def visitDispatch {T : Type} (v : Visitor T) (n : PNode) : Option T :=
  match specificResult v n with
  | some r => some r
  | none =>
    match v.visitNode with
    | some f => f n
    | none => none

/-- Whether the kind-specific callback fires during one dispatch (it is
invoked whenever it is present). -/
def firedSpecific {T : Type} (v : Visitor T) (n : PNode) : Bool :=
  (specificCb v n).isSome

/-- Whether the fallback `visitNode` callback fires during one dispatch (it
is invoked when it is present and the kind-specific result was
`undefined`). -/
def firedFallback {T : Type} (v : Visitor T) (n : PNode) : Bool :=
  (specificResult v n).isNone && v.visitNode.isSome

/-- How many visitor callbacks fire for one visit of `n`. -/
def firedCount {T : Type} (v : Visitor T) (n : PNode) : Nat :=
  (if firedSpecific v n then 1 else 0) + (if firedFallback v n then 1 else 0)

/-- `TraversalOptions`. -/
structure TraversalOptions (T : Type) where
  depthFirst : Bool := true
  includeSelf : Bool := true
  filter : Option (PNode → Bool) := none

/-- `!filter || filter(currentNode)`. -/
def passesFilter {T : Type} (o : TraversalOptions T) (n : PNode) : Bool :=
  match o.filter with
  | some f => f n
  | none => true

/-- The per-node part of one `visit` call: the dispatch result (when the
node is included and passes the filter) merged with the recursively
collected children results, after the children for post-order (depth-first)
and before them otherwise. -/
def visitAssemble {T : Type} (v : Visitor T) (o : TraversalOptions T)
    (n : PNode) (rest : List T) : List T :=
  let self : List T :=
    if o.includeSelf && passesFilter o n then
      match visitDispatch v n with
      | some r => [r]
      | none => []
    else []
  if o.depthFirst then rest ++ self else self ++ rest

mutual

/-- The recursive `visit` closure of `ASTTraverser.traverse`, collecting the
defined dispatch results.  The `visited` identity set of the source can
never trigger on a factory-built tree (each node object occurs exactly
once), so it is not modelled. -/
def traverseNode {T : Type} (v : Visitor T) (o : TraversalOptions T) :
    PNode → List T
  | .document cs p => visitAssemble v o (.document cs p) (traverseChildren v o cs)
  | .heading l cs p => visitAssemble v o (.heading l cs p) (traverseChildren v o cs)
  | .paragraph cs p => visitAssemble v o (.paragraph cs p) (traverseChildren v o cs)
  | .code_block val lg p => visitAssemble v o (.code_block val lg p) []
  | .quote cs p => visitAssemble v o (.quote cs p) (traverseChildren v o cs)
  | .list or st mk cs p =>
    visitAssemble v o (.list or st mk cs p) (traverseChildren v o cs)
  | .list_item ck cs p =>
    visitAssemble v o (.list_item ck cs p) (traverseChildren v o cs)
  | .horizontal_rule p => visitAssemble v o (.horizontal_rule p) []
  | .text val p => visitAssemble v o (.text val p) []
  | .bold cs p => visitAssemble v o (.bold cs p) (traverseChildren v o cs)
  | .italic cs p => visitAssemble v o (.italic cs p) (traverseChildren v o cs)
  | .code val p => visitAssemble v o (.code val p) []
  | .link u cs p => visitAssemble v o (.link u cs p) (traverseChildren v o cs)
  | .image u al p => visitAssemble v o (.image u al p) []
  | .newline p => visitAssemble v o (.newline p) []

/-- `for (const child of currentNode.children) visit(child)`. -/
def traverseChildren {T : Type} (v : Visitor T) (o : TraversalOptions T) :
    List PNode → List T
  | [] => []
  | n :: r => traverseNode v o n ++ traverseChildren v o r

end

/-- One dispatch-log entry: the node with the number of callbacks firing
for this visit (when the node is included and passes the filter). -/
def logAssemble {T : Type} (v : Visitor T) (o : TraversalOptions T)
    (n : PNode) (rest : List (PNode × Nat)) : List (PNode × Nat) :=
  let self : List (PNode × Nat) :=
    if o.includeSelf && passesFilter o n then [(n, firedCount v n)] else []
  if o.depthFirst then rest ++ self else self ++ rest

mutual

/-- The dispatch log of one `traverse`: every node the walk dispatches a
visitor call for, in visit order, with the number of callbacks that fire
for it. -/
def firedLogNode {T : Type} (v : Visitor T) (o : TraversalOptions T) :
    PNode → List (PNode × Nat)
  | .document cs p => logAssemble v o (.document cs p) (firedLogChildren v o cs)
  | .heading l cs p => logAssemble v o (.heading l cs p) (firedLogChildren v o cs)
  | .paragraph cs p => logAssemble v o (.paragraph cs p) (firedLogChildren v o cs)
  | .code_block val lg p => logAssemble v o (.code_block val lg p) []
  | .quote cs p => logAssemble v o (.quote cs p) (firedLogChildren v o cs)
  | .list or st mk cs p =>
    logAssemble v o (.list or st mk cs p) (firedLogChildren v o cs)
  | .list_item ck cs p =>
    logAssemble v o (.list_item ck cs p) (firedLogChildren v o cs)
  | .horizontal_rule p => logAssemble v o (.horizontal_rule p) []
  | .text val p => logAssemble v o (.text val p) []
  | .bold cs p => logAssemble v o (.bold cs p) (firedLogChildren v o cs)
  | .italic cs p => logAssemble v o (.italic cs p) (firedLogChildren v o cs)
  | .code val p => logAssemble v o (.code val p) []
  | .link u cs p => logAssemble v o (.link u cs p) (firedLogChildren v o cs)
  | .image u al p => logAssemble v o (.image u al p) []
  | .newline p => logAssemble v o (.newline p) []

/-- Dispatch log over a children array. -/
def firedLogChildren {T : Type} (v : Visitor T) (o : TraversalOptions T) :
    List PNode → List (PNode × Nat)
  | [] => []
  | n :: r => firedLogNode v o n ++ firedLogChildren v o r

end

/-! # Theorems -/

/-! ## Lexer step lemmas: what one `scanToken` call does to the state -/

theorem take_of_le_runLen (l : List Char) (c : Char) (n : Nat) (h : n ≤ runLen l c) :
    l.take n = List.replicate n c := by
  induction n generalizing l with
  | zero => simp
  | succ m ih =>
    cases l with
    | nil => simp [runLen] at h
    | cons a t =>
      by_cases ha : a = c
      · subst ha
        have : m ≤ runLen t a := by
          simpa [runLen, List.takeWhile_cons] using h
        simp [List.take_succ_cons, ih t this, List.replicate_succ]
      · simp [runLen, List.takeWhile_cons, ha] at h

theorem runLen_pos_head (l : List Char) (c : Char) (h : 0 < runLen l c) :
    ∃ t, l = c :: t := by
  cases l with
  | nil => simp [runLen] at h
  | cons a t =>
    by_cases ha : a = c
    · exact ⟨t, by rw [ha]⟩
    · simp [runLen, List.takeWhile_cons, ha] at h

theorem adv_rest (st : LexSt) (n : Nat) : (st.adv n).rest = st.rest.drop n := by
  simp [LexSt.adv, LexSt.rest, List.drop_drop, Nat.add_comm]

theorem adv_adv (st : LexSt) (a b : Nat) : (st.adv a).adv b = st.adv (a + b) := by
  simp [LexSt.adv, Nat.add_assoc]

theorem rest_head (st : LexSt) (h : st.atEnd = false) :
    ∃ t, st.rest = st.peekC :: t := by
  have hlen : st.offset < st.input.length := by
    simp [LexSt.atEnd, decide_eq_false_iff_not] at h
    omega
  cases hr : st.rest with
  | nil =>
    have h0 : st.input.length - st.offset = 0 := by
      have := congrArg List.length hr
      simpa [LexSt.rest] using this
    omega
  | cons a t => exact ⟨t, by simp [LexSt.peekC, hr]⟩

theorem simple_rule_bundle (st : LexSt) (hcol : 1 ≤ st.column) (ty : TokenType)
    (v : List Char) (n : Nat) (hn : v.length = n) (hv : st.rest.take n = v) :
    (st.adv n).input = st.input ∧
    v ++ (st.adv n).rest = st.rest ∧
    (st.adv n).offset = st.offset + v.length ∧
    1 ≤ (st.adv n).column ∧
    (st.adv n).line = st.line ∧
    (st.adv n).column = st.column + v.length ∧
    (createToken (st.adv n) ty v).position = ⟨st.line, st.column, st.offset⟩ := by
  subst hn
  refine ⟨rfl, ?_, rfl, ?_, rfl, rfl, ?_⟩
  · rw [adv_rest]
    calc v ++ st.rest.drop v.length
        = st.rest.take v.length ++ st.rest.drop v.length := by rw [hv]
      _ = st.rest := List.take_append_drop _ _
  · simp [LexSt.adv]; omega
  · simp [createToken, LexSt.adv]
    omega

set_option maxHeartbeats 2000000 in
theorem scanToken_step (st : LexSt) (h : st.atEnd = false) (hcol : 1 ≤ st.column)
    (t : Token) (st2 : LexSt) (hscan : scanToken st = (t, st2)) :
    st2.input = st.input ∧
    t.value ++ st2.rest = st.rest ∧
    st2.offset = st.offset + t.value.length ∧
    1 ≤ st2.column ∧
    t.type ≠ .eof ∧ t.type ≠ .heading ∧ t.type ≠ .quote ∧ t.type ≠ .list_item ∧
    (t.type ≠ .newline →
      st2.line = st.line ∧ st2.column = st.column + t.value.length ∧
      t.position = ⟨st.line, st.column, st.offset⟩ ∧
      ∀ c ∈ t.value, c ≠ '\n') ∧
    (t.type = .newline →
      t.value = ['\n'] ∧ st2.line = st.line + 1 ∧ st2.column = 1 ∧
      t.position = ⟨st.line + 1, 1, st.offset⟩) := by
  obtain ⟨rtl, hrest⟩ := rest_head st h
  unfold scanToken at hscan
  by_cases h1 : st.peekC = '#'
  · rw [if_pos h1] at hscan
    simp only [scanHash] at hscan
    injection hscan with ht hst
    subst ht; subst hst
    have hmin : min (runLen st.rest '#') 6 ≤ runLen st.rest '#' := Nat.min_le_left _ _
    have hv : st.rest.take (min (runLen st.rest '#') 6) =
        List.replicate (min (runLen st.rest '#') 6) '#' :=
      take_of_le_runLen _ _ _ hmin
    obtain ⟨hin, hcat, hoff, hc1, hln, hcl, hpos⟩ :=
      simple_rule_bundle st hcol .hash _ _ (List.length_replicate _ _) hv
    refine ⟨hin, hcat, hoff, hc1,
      (by decide : TokenType.hash ≠ TokenType.eof),
      (by decide : TokenType.hash ≠ TokenType.heading),
      (by decide : TokenType.hash ≠ TokenType.quote),
      (by decide : TokenType.hash ≠ TokenType.list_item),
      fun _ => ⟨hln, hcl, hpos, ?_⟩,
      fun hnl => absurd hnl (by decide : TokenType.hash ≠ TokenType.newline)⟩
    intro c hc
    rw [List.eq_of_mem_replicate hc]
    decide
  · rw [if_neg h1] at hscan
    by_cases h2 : st.peekC = '*'
    · rw [if_pos h2] at hscan
      simp only [scanAsterisk] at hscan
      have hrest1 : (st.adv 1).rest = rtl := by
        rw [adv_rest, hrest]
        rfl
      by_cases ha : (st.adv 1).peekC = '*'
      · rw [if_pos ha] at hscan
        rw [adv_adv] at hscan
        injection hscan with ht hst
        subst ht; subst hst
        obtain ⟨t2, ht2⟩ : ∃ t2, rtl = '*' :: t2 := by
          cases hr2 : rtl with
          | nil =>
            rw [LexSt.peekC, hrest1, hr2] at ha
            exact absurd ha (by decide)
          | cons b t2 =>
            rw [LexSt.peekC, hrest1, hr2] at ha
            simp only [List.headD_cons] at ha
            exact ⟨t2, by rw [ha]⟩
        have hv : st.rest.take 2 = ['*', '*'] := by rw [hrest, h2, ht2]; rfl
        obtain ⟨hin, hcat, hoff, hc1, hln, hcl, hpos⟩ :=
          simple_rule_bundle st hcol .bold ['*', '*'] 2 rfl hv
        refine ⟨hin, hcat, hoff, hc1,
          (by decide : TokenType.bold ≠ TokenType.eof),
          (by decide : TokenType.bold ≠ TokenType.heading),
          (by decide : TokenType.bold ≠ TokenType.quote),
          (by decide : TokenType.bold ≠ TokenType.list_item),
          fun _ => ⟨hln, hcl, hpos, ?_⟩,
          fun hnl => absurd hnl (by decide : TokenType.bold ≠ TokenType.newline)⟩
        exact fun c hc => by
          rcases List.mem_pair.1 hc with h | h <;> (rw [h]; decide)
      · rw [if_neg ha] at hscan
        injection hscan with ht hst
        subst ht; subst hst
        have hv : st.rest.take 1 = ['*'] := by rw [hrest, h2]; rfl
        obtain ⟨hin, hcat, hoff, hc1, hln, hcl, hpos⟩ :=
          simple_rule_bundle st hcol .asterisk ['*'] 1 rfl hv
        refine ⟨hin, hcat, hoff, hc1,
          (by decide : TokenType.asterisk ≠ TokenType.eof),
          (by decide : TokenType.asterisk ≠ TokenType.heading),
          (by decide : TokenType.asterisk ≠ TokenType.quote),
          (by decide : TokenType.asterisk ≠ TokenType.list_item),
          fun _ => ⟨hln, hcl, hpos, ?_⟩,
          fun hnl => absurd hnl (by decide : TokenType.asterisk ≠ TokenType.newline)⟩
        exact fun c hc => by rw [List.mem_singleton.1 hc]; decide
    · rw [if_neg h2] at hscan
      by_cases h3 : st.peekC = Char.ofNat 96
      · rw [if_pos h3] at hscan
        simp only [scanBacktick] at hscan
        by_cases hb : runLen st.rest (Char.ofNat 96) = 3
        · rw [if_pos hb] at hscan
          injection hscan with ht hst
          subst ht; subst hst
          have hv : st.rest.take (runLen st.rest (Char.ofNat 96)) = List.replicate (runLen st.rest (Char.ofNat 96)) (Char.ofNat 96) :=
            take_of_le_runLen _ _ _ (Nat.le_refl _)
          obtain ⟨hin, hcat, hoff, hc1, hln, hcl, hpos⟩ :=
            simple_rule_bundle st hcol .code_block _ _ (List.length_replicate _ _) hv
          refine ⟨hin, hcat, hoff, hc1,
            (by decide : TokenType.code_block ≠ TokenType.eof),
            (by decide : TokenType.code_block ≠ TokenType.heading),
            (by decide : TokenType.code_block ≠ TokenType.quote),
            (by decide : TokenType.code_block ≠ TokenType.list_item),
            fun _ => ⟨hln, hcl, hpos, ?_⟩,
            fun hnl => absurd hnl (by decide : TokenType.code_block ≠ TokenType.newline)⟩
          intro c hc
          rw [List.eq_of_mem_replicate hc]
          decide
        · rw [if_neg hb] at hscan
          injection hscan with ht hst
          subst ht; subst hst
          have hv : st.rest.take (runLen st.rest (Char.ofNat 96)) = List.replicate (runLen st.rest (Char.ofNat 96)) (Char.ofNat 96) :=
            take_of_le_runLen _ _ _ (Nat.le_refl _)
          obtain ⟨hin, hcat, hoff, hc1, hln, hcl, hpos⟩ :=
            simple_rule_bundle st hcol .backtick _ _ (List.length_replicate _ _) hv
          refine ⟨hin, hcat, hoff, hc1,
            (by decide : TokenType.backtick ≠ TokenType.eof),
            (by decide : TokenType.backtick ≠ TokenType.heading),
            (by decide : TokenType.backtick ≠ TokenType.quote),
            (by decide : TokenType.backtick ≠ TokenType.list_item),
            fun _ => ⟨hln, hcl, hpos, ?_⟩,
            fun hnl => absurd hnl (by decide : TokenType.backtick ≠ TokenType.newline)⟩
          intro c hc
          rw [List.eq_of_mem_replicate hc]
          decide
      · rw [if_neg h3] at hscan
        by_cases h4 : st.peekC = '['
        · rw [if_pos h4] at hscan
          simp only [scanSingle] at hscan
          injection hscan with ht hst
          subst ht; subst hst
          have hv : st.rest.take 1 = ['['] := by rw [hrest, h4]; rfl
          obtain ⟨hin, hcat, hoff, hc1, hln, hcl, hpos⟩ :=
            simple_rule_bundle st hcol .bracket_open ['['] 1 rfl hv
          refine ⟨hin, hcat, hoff, hc1,
            (by decide : TokenType.bracket_open ≠ TokenType.eof),
            (by decide : TokenType.bracket_open ≠ TokenType.heading),
            (by decide : TokenType.bracket_open ≠ TokenType.quote),
            (by decide : TokenType.bracket_open ≠ TokenType.list_item),
            fun _ => ⟨hln, hcl, hpos, ?_⟩,
            fun hnl => absurd hnl (by decide : TokenType.bracket_open ≠ TokenType.newline)⟩
          exact fun c hc => by rw [List.mem_singleton.1 hc]; decide
        · rw [if_neg h4] at hscan
          by_cases h5 : st.peekC = ']'
          · rw [if_pos h5] at hscan
            simp only [scanSingle] at hscan
            injection hscan with ht hst
            subst ht; subst hst
            have hv : st.rest.take 1 = [']'] := by rw [hrest, h5]; rfl
            obtain ⟨hin, hcat, hoff, hc1, hln, hcl, hpos⟩ :=
              simple_rule_bundle st hcol .bracket_close [']'] 1 rfl hv
            refine ⟨hin, hcat, hoff, hc1,
              (by decide : TokenType.bracket_close ≠ TokenType.eof),
              (by decide : TokenType.bracket_close ≠ TokenType.heading),
              (by decide : TokenType.bracket_close ≠ TokenType.quote),
              (by decide : TokenType.bracket_close ≠ TokenType.list_item),
              fun _ => ⟨hln, hcl, hpos, ?_⟩,
              fun hnl => absurd hnl (by decide : TokenType.bracket_close ≠ TokenType.newline)⟩
            exact fun c hc => by rw [List.mem_singleton.1 hc]; decide
          · rw [if_neg h5] at hscan
            by_cases h6 : st.peekC = '('
            · rw [if_pos h6] at hscan
              simp only [scanSingle] at hscan
              injection hscan with ht hst
              subst ht; subst hst
              have hv : st.rest.take 1 = ['('] := by rw [hrest, h6]; rfl
              obtain ⟨hin, hcat, hoff, hc1, hln, hcl, hpos⟩ :=
                simple_rule_bundle st hcol .paren_open ['('] 1 rfl hv
              refine ⟨hin, hcat, hoff, hc1,
                (by decide : TokenType.paren_open ≠ TokenType.eof),
                (by decide : TokenType.paren_open ≠ TokenType.heading),
                (by decide : TokenType.paren_open ≠ TokenType.quote),
                (by decide : TokenType.paren_open ≠ TokenType.list_item),
                fun _ => ⟨hln, hcl, hpos, ?_⟩,
                fun hnl => absurd hnl (by decide : TokenType.paren_open ≠ TokenType.newline)⟩
              exact fun c hc => by rw [List.mem_singleton.1 hc]; decide
            · rw [if_neg h6] at hscan
              by_cases h7 : st.peekC = ')'
              · rw [if_pos h7] at hscan
                simp only [scanSingle] at hscan
                injection hscan with ht hst
                subst ht; subst hst
                have hv : st.rest.take 1 = [')'] := by rw [hrest, h7]; rfl
                obtain ⟨hin, hcat, hoff, hc1, hln, hcl, hpos⟩ :=
                  simple_rule_bundle st hcol .paren_close [')'] 1 rfl hv
                refine ⟨hin, hcat, hoff, hc1,
                  (by decide : TokenType.paren_close ≠ TokenType.eof),
                  (by decide : TokenType.paren_close ≠ TokenType.heading),
                  (by decide : TokenType.paren_close ≠ TokenType.quote),
                  (by decide : TokenType.paren_close ≠ TokenType.list_item),
                  fun _ => ⟨hln, hcl, hpos, ?_⟩,
                  fun hnl => absurd hnl (by decide : TokenType.paren_close ≠ TokenType.newline)⟩
                exact fun c hc => by rw [List.mem_singleton.1 hc]; decide
              · rw [if_neg h7] at hscan
                by_cases h8 : st.peekC = '!'
                · rw [if_pos h8] at hscan
                  simp only [scanSingle] at hscan
                  injection hscan with ht hst
                  subst ht; subst hst
                  have hv : st.rest.take 1 = ['!'] := by rw [hrest, h8]; rfl
                  obtain ⟨hin, hcat, hoff, hc1, hln, hcl, hpos⟩ :=
                    simple_rule_bundle st hcol .exclamation ['!'] 1 rfl hv
                  refine ⟨hin, hcat, hoff, hc1,
                    (by decide : TokenType.exclamation ≠ TokenType.eof),
                    (by decide : TokenType.exclamation ≠ TokenType.heading),
                    (by decide : TokenType.exclamation ≠ TokenType.quote),
                    (by decide : TokenType.exclamation ≠ TokenType.list_item),
                    fun _ => ⟨hln, hcl, hpos, ?_⟩,
                    fun hnl => absurd hnl (by decide : TokenType.exclamation ≠ TokenType.newline)⟩
                  exact fun c hc => by rw [List.mem_singleton.1 hc]; decide
                · rw [if_neg h8] at hscan
                  by_cases h9 : st.peekC = '>'
                  · rw [if_pos h9] at hscan
                    simp only [scanSingle] at hscan
                    injection hscan with ht hst
                    subst ht; subst hst
                    have hv : st.rest.take 1 = ['>'] := by rw [hrest, h9]; rfl
                    obtain ⟨hin, hcat, hoff, hc1, hln, hcl, hpos⟩ :=
                      simple_rule_bundle st hcol .greater_than ['>'] 1 rfl hv
                    refine ⟨hin, hcat, hoff, hc1,
                      (by decide : TokenType.greater_than ≠ TokenType.eof),
                      (by decide : TokenType.greater_than ≠ TokenType.heading),
                      (by decide : TokenType.greater_than ≠ TokenType.quote),
                      (by decide : TokenType.greater_than ≠ TokenType.list_item),
                      fun _ => ⟨hln, hcl, hpos, ?_⟩,
                      fun hnl => absurd hnl (by decide : TokenType.greater_than ≠ TokenType.newline)⟩
                    exact fun c hc => by rw [List.mem_singleton.1 hc]; decide
                  · rw [if_neg h9] at hscan
                    by_cases h10 : st.peekC = '-'
                    · rw [if_pos h10] at hscan
                      simp only [scanMinus] at hscan
                      by_cases hb : 3 ≤ runLen st.rest '-'
                      · rw [if_pos hb] at hscan
                        injection hscan with ht hst
                        subst ht; subst hst
                        have hv : st.rest.take (runLen st.rest '-') = List.replicate (runLen st.rest '-') '-' :=
                          take_of_le_runLen _ _ _ (Nat.le_refl _)
                        obtain ⟨hin, hcat, hoff, hc1, hln, hcl, hpos⟩ :=
                          simple_rule_bundle st hcol .horizontal_rule _ _ (List.length_replicate _ _) hv
                        refine ⟨hin, hcat, hoff, hc1,
                          (by decide : TokenType.horizontal_rule ≠ TokenType.eof),
                          (by decide : TokenType.horizontal_rule ≠ TokenType.heading),
                          (by decide : TokenType.horizontal_rule ≠ TokenType.quote),
                          (by decide : TokenType.horizontal_rule ≠ TokenType.list_item),
                          fun _ => ⟨hln, hcl, hpos, ?_⟩,
                          fun hnl => absurd hnl (by decide : TokenType.horizontal_rule ≠ TokenType.newline)⟩
                        intro c hc
                        rw [List.eq_of_mem_replicate hc]
                        decide
                      · rw [if_neg hb] at hscan
                        injection hscan with ht hst
                        subst ht; subst hst
                        have hv : st.rest.take (runLen st.rest '-') = List.replicate (runLen st.rest '-') '-' :=
                          take_of_le_runLen _ _ _ (Nat.le_refl _)
                        obtain ⟨hin, hcat, hoff, hc1, hln, hcl, hpos⟩ :=
                          simple_rule_bundle st hcol .minus _ _ (List.length_replicate _ _) hv
                        refine ⟨hin, hcat, hoff, hc1,
                          (by decide : TokenType.minus ≠ TokenType.eof),
                          (by decide : TokenType.minus ≠ TokenType.heading),
                          (by decide : TokenType.minus ≠ TokenType.quote),
                          (by decide : TokenType.minus ≠ TokenType.list_item),
                          fun _ => ⟨hln, hcl, hpos, ?_⟩,
                          fun hnl => absurd hnl (by decide : TokenType.minus ≠ TokenType.newline)⟩
                        intro c hc
                        rw [List.eq_of_mem_replicate hc]
                        decide
                    · rw [if_neg h10] at hscan
                      by_cases h11 : st.peekC = '.'
                      · rw [if_pos h11] at hscan
                        simp only [scanSingle] at hscan
                        injection hscan with ht hst
                        subst ht; subst hst
                        have hv : st.rest.take 1 = ['.'] := by rw [hrest, h11]; rfl
                        obtain ⟨hin, hcat, hoff, hc1, hln, hcl, hpos⟩ :=
                          simple_rule_bundle st hcol .dot ['.'] 1 rfl hv
                        refine ⟨hin, hcat, hoff, hc1,
                          (by decide : TokenType.dot ≠ TokenType.eof),
                          (by decide : TokenType.dot ≠ TokenType.heading),
                          (by decide : TokenType.dot ≠ TokenType.quote),
                          (by decide : TokenType.dot ≠ TokenType.list_item),
                          fun _ => ⟨hln, hcl, hpos, ?_⟩,
                          fun hnl => absurd hnl (by decide : TokenType.dot ≠ TokenType.newline)⟩
                        exact fun c hc => by rw [List.mem_singleton.1 hc]; decide
                      · rw [if_neg h11] at hscan
                        by_cases h12 : st.peekC = '\n'
                        · rw [if_pos h12] at hscan
                          simp only [scanNewline] at hscan
                          injection hscan with ht hst
                          subst ht; subst hst
                          refine ⟨rfl, ?_, rfl, Nat.le_refl 1,
                            (by decide : TokenType.newline ≠ TokenType.eof),
                            (by decide : TokenType.newline ≠ TokenType.heading),
                            (by decide : TokenType.newline ≠ TokenType.quote),
                            (by decide : TokenType.newline ≠ TokenType.list_item),
                            fun hne => absurd rfl hne,
                            fun _ => ⟨rfl, rfl, rfl, ?_⟩⟩
                          · show '\n' :: (st.adv 1).rest = st.rest
                            rw [adv_rest, hrest, h12]
                            rfl
                          · simp [createToken, LexSt.adv]
                        · rw [if_neg h12] at hscan
                          by_cases h13 : st.peekC = '\t'
                          · rw [if_pos h13] at hscan
                            simp only [scanSingle] at hscan
                            injection hscan with ht hst
                            subst ht; subst hst
                            have hv : st.rest.take 1 = ['\t'] := by rw [hrest, h13]; rfl
                            obtain ⟨hin, hcat, hoff, hc1, hln, hcl, hpos⟩ :=
                              simple_rule_bundle st hcol .tab ['\t'] 1 rfl hv
                            refine ⟨hin, hcat, hoff, hc1,
                              (by decide : TokenType.tab ≠ TokenType.eof),
                              (by decide : TokenType.tab ≠ TokenType.heading),
                              (by decide : TokenType.tab ≠ TokenType.quote),
                              (by decide : TokenType.tab ≠ TokenType.list_item),
                              fun _ => ⟨hln, hcl, hpos, ?_⟩,
                              fun hnl => absurd hnl (by decide : TokenType.tab ≠ TokenType.newline)⟩
                            exact fun c hc => by rw [List.mem_singleton.1 hc]; decide
                          · rw [if_neg h13] at hscan
                            by_cases h14 : st.peekC = ' '
                            · rw [if_pos h14] at hscan
                              simp only [scanWhitespace] at hscan
                              injection hscan with ht hst
                              subst ht; subst hst
                              have hv : st.rest.take (runLen st.rest ' ') = List.replicate (runLen st.rest ' ') ' ' :=
                                take_of_le_runLen _ _ _ (Nat.le_refl _)
                              obtain ⟨hin, hcat, hoff, hc1, hln, hcl, hpos⟩ :=
                                simple_rule_bundle st hcol .whitespace _ _ (List.length_replicate _ _) hv
                              refine ⟨hin, hcat, hoff, hc1,
                                (by decide : TokenType.whitespace ≠ TokenType.eof),
                                (by decide : TokenType.whitespace ≠ TokenType.heading),
                                (by decide : TokenType.whitespace ≠ TokenType.quote),
                                (by decide : TokenType.whitespace ≠ TokenType.list_item),
                                fun _ => ⟨hln, hcl, hpos, ?_⟩,
                                fun hnl => absurd hnl (by decide : TokenType.whitespace ≠ TokenType.newline)⟩
                              intro c hc
                              rw [List.eq_of_mem_replicate hc]
                              decide
                            · rw [if_neg h14] at hscan
                              by_cases h15 : isDigitC st.peekC = true
                              · rw [if_pos h15] at hscan
                                simp only [scanDigit] at hscan
                                injection hscan with ht hst
                                subst ht; subst hst
                                have hv : st.rest.take (st.rest.takeWhile isDigitC).length = st.rest.takeWhile isDigitC :=
                                  (List.prefix_iff_eq_take.1 (List.takeWhile_prefix _)).symm
                                obtain ⟨hin, hcat, hoff, hc1, hln, hcl, hpos⟩ :=
                                  simple_rule_bundle st hcol .digit _ _ rfl hv
                                refine ⟨hin, hcat, hoff, hc1,
                                  (by decide : TokenType.digit ≠ TokenType.eof),
                                  (by decide : TokenType.digit ≠ TokenType.heading),
                                  (by decide : TokenType.digit ≠ TokenType.quote),
                                  (by decide : TokenType.digit ≠ TokenType.list_item),
                                  fun _ => ⟨hln, hcl, hpos, ?_⟩,
                                  fun hnl => absurd hnl (by decide : TokenType.digit ≠ TokenType.newline)⟩
                                intro c hc hceq
                                have hp := List.mem_takeWhile_imp hc
                                rw [hceq] at hp
                                exact absurd hp (by decide)
                              · rw [if_neg h15] at hscan
                                simp only [scanText] at hscan
                                injection hscan with ht hst
                                subst ht; subst hst
                                have hv : st.rest.take (st.rest.takeWhile isTextChar).length = st.rest.takeWhile isTextChar :=
                                  (List.prefix_iff_eq_take.1 (List.takeWhile_prefix _)).symm
                                obtain ⟨hin, hcat, hoff, hc1, hln, hcl, hpos⟩ :=
                                  simple_rule_bundle st hcol .text _ _ rfl hv
                                refine ⟨hin, hcat, hoff, hc1,
                                  (by decide : TokenType.text ≠ TokenType.eof),
                                  (by decide : TokenType.text ≠ TokenType.heading),
                                  (by decide : TokenType.text ≠ TokenType.quote),
                                  (by decide : TokenType.text ≠ TokenType.list_item),
                                  fun _ => ⟨hln, hcl, hpos, ?_⟩,
                                  fun hnl => absurd hnl (by decide : TokenType.text ≠ TokenType.newline)⟩
                                intro c hc hceq
                                have hp := List.mem_takeWhile_imp hc
                                rw [hceq] at hp
                                exact absurd hp (by decide)


/-- C1.  The claim says parsing `"1. a\n2. b\n   - c"` yields one ordered
list of two items with a nested unordered list.  The code disagrees: the
lexer tokenizes `1.` as digit+dot and `-` as a minus token and never emits a
`list_item`-typed token, so `parseBlock`'s list branch is dead and the input
parses to three plain paragraphs (the repository's own parser tests expect
list nodes from this very pipeline and fail on it). -/
theorem c1_list_input_parses_to_three_paragraphs :
    docChildKinds (parsePipeline 200 (String.toList "1. a\n2. b\n   - c")) =
      some [.paragraph, .paragraph, .paragraph] := by
  decide

/-- C4.  Parsing `'**'` (one bold-mark token, then end-of-stream) yields a
document with exactly one paragraph child; that paragraph contains exactly
one text node whose value is `'**'`, and no bold node.  (The paragraph also
carries the empty text node produced from the zero-length end-of-stream
token — see C10 — which is not a text node with value `'**'`.) -/
theorem c4_unterminated_bold_degrades_to_text :
    parsePipeline 100 (String.toList "**") =
      .ok (PNode.document
        [PNode.paragraph
          [PNode.text ['*', '*'] ⟨1, 1, 0⟩, PNode.text [] ⟨1, 3, 2⟩]
          ⟨1, 1, 0⟩] ⟨1, 1, 0⟩) 2 ∧
    [PNode.text ['*', '*'] (⟨1, 1, 0⟩ : Position), PNode.text [] ⟨1, 3, 2⟩].countP
      (fun c => decide (c.ntype = .text ∧ c.nvalue = ['*', '*'])) = 1 ∧
    [PNode.text ['*', '*'] (⟨1, 1, 0⟩ : Position), PNode.text [] ⟨1, 3, 2⟩].countP
      (fun c => decide (c.ntype = .bold)) = 0 :=
  ⟨by rfl, by decide, by decide⟩

theorem lexLoop_vt_none :
    ∀ f, lexLoop ⟨[Char.ofNat 0x0b], 1, 1, 0⟩ f = none := by
  intro f
  induction f with
  | zero => decide
  | succ g ih =>
    rw [show lexLoop ⟨[Char.ofNat 0x0b], 1, 1, 0⟩ (g + 1) =
          (lexLoop ⟨[Char.ofNat 0x0b], 1, 1, 0⟩ g).map
            ((scanToken ⟨[Char.ofNat 0x0b], 1, 1, 0⟩).1 :: ·) from rfl, ih]
    rfl

theorem tokenizeF_vt_none : ∀ fuel, tokenizeF fuel [Char.ofNat 0x0b] = none :=
  fun fuel => lexLoop_vt_none fuel

/-- C3.  The claim says `tokenize` terminates on every input because every
scan rule consumes at least one character.  It does not: for a character
that is JavaScript-regex whitespace but has no dedicated scan rule —
U+000B (vertical tab) here — `scanText` consumes zero characters
(`isTextChar` rejects the character via `isWhitespace`), the lexer state
never advances, and the tokenize loop runs forever: no amount of fuel makes
it return. -/
theorem c3_tokenize_diverges_on_vertical_tab :
    ∀ fuel, tokenizeF fuel [Char.ofNat 0x0b] = none :=
  fun fuel => tokenizeF_vt_none fuel

/-- C6 (counterexample).  The claim says the lexer hands the whole fenced
block — both fences and the interior — as one code-block token.  On the
input made of a fence, a one-character line `b`, and a closing fence, the
lexer instead emits two code-block tokens each carrying only `` ``` ``; no
token's literal is the whole block, and the parsed document is a fence /
paragraph / fence / paragraph sequence with no code_block node whose value
is the interior line `b`. -/
theorem c6_fenced_block_not_one_token :
    ∃ ts, tokenizeF 100 fencedSample = some ts ∧
      ts.countP (fun t => decide (t.type = .code_block)) = 2 ∧
      (∀ t ∈ ts, t.value ≠ fencedSample) ∧
      docChildKinds (parsePipeline 100 fencedSample) =
        some [.code_block, .paragraph, .code_block, .paragraph] ∧
      ((docChildren (parsePipeline 100 fencedSample)).getD []).countP
        (fun b => decide (b.ntype = .code_block ∧ b.nvalue = ['b'])) = 0 := by
  refine ⟨(tokenizeF 100 fencedSample).getD [], ?_, ?_, ?_, ?_, ?_⟩ <;> decide

/-- C6 (amended).  What the code actually does: (1) the lexer emits, for a
backtick run of exactly three, a code-block token whose value is just the
three-backtick fence (never the fenced interior); (2) the parser splits
whatever value a code-block token carries on newlines, takes the first
line's text after a leading fence as the (trimmed) language tag, and joins
the lines strictly between the first and last as the code_block node's
value.  (Fed from this lexer, the value is always `` ``` ``, so language
and code are always empty.) -/
theorem c6_amended_fence_token_and_split :
    (∀ st : LexSt, runLen st.rest (Char.ofNat 96) = 3 →
      (scanToken st).1.type = .code_block ∧
      (scanToken st).1.value = List.replicate 3 (Char.ofNat 96)) ∧
    (∀ (v : List Char) (p1 p2 : Position),
      parseF [⟨.code_block, v, p1, v.length, v⟩, ⟨.eof, [], p2, 0, []⟩] 9 =
        .ok (PNode.document
          [PNode.code_block (joinNl (((splitNl v).drop 1).dropLast))
            (if leadsWith (List.replicate 3 (Char.ofNat 96)) ((splitNl v).headD [])
             then some (trimJS (((splitNl v).headD []).drop 3)) else none) p1,
           PNode.paragraph [PNode.text [] p2] p2] ⟨1, 1, 0⟩) 2) := by
  constructor
  · intro st h
    have hpk : st.peekC = Char.ofNat 96 := by
      unfold LexSt.peekC
      cases hr : st.rest with
      | nil => rw [hr] at h; simp [runLen] at h
      | cons a t =>
        rw [hr] at h
        by_cases ha : a = Char.ofNat 96
        · simp [ha]
        · simp [runLen, List.takeWhile_cons, ha] at h
    have : scanToken st = scanBacktick st := by
      simp [scanToken, hpk]
    rw [this]
    simp [scanBacktick, h, createToken]
  · intro v p1 p2
    rfl

/-- Witness for C6 (amended): the fence-scan half evaluated on a lexer
state holding exactly ```` ``` ````. -/
theorem c6_amended_fence_token_and_split_witness :
    (scanToken ⟨List.replicate 3 (Char.ofNat 96), 1, 1, 0⟩).1.type = .code_block ∧
    (scanToken ⟨List.replicate 3 (Char.ofNat 96), 1, 1, 0⟩).1.value =
      List.replicate 3 (Char.ofNat 96) :=
  c6_amended_fence_token_and_split.1 ⟨List.replicate 3 (Char.ofNat 96), 1, 1, 0⟩
    (by decide)

/-- Helper: an entry of one `logAssemble` step is either from the children
log or the (node, fired-count) pair of this visit. -/
theorem logAssemble_mem {T : Type} (v : Visitor T) (o : TraversalOptions T)
    (n : PNode) (rest : List (PNode × Nat)) (e : PNode × Nat)
    (h : e ∈ logAssemble v o n rest) : e ∈ rest ∨ e = (n, firedCount v n) := by
  cases hd : o.depthFirst <;> cases hs : o.includeSelf && passesFilter o n <;>
    simp only [logAssemble, hd, hs, Bool.false_eq_true, if_false, if_true,
      List.append_nil, List.nil_append, List.mem_append, List.mem_singleton] at h <;>
    tauto

theorem firedLog_shape {T : Type} (v : Visitor T) (o : TraversalOptions T) :
    ∀ root : PNode, ∀ e ∈ firedLogNode v o root, ∃ m, e = (m, firedCount v m) := by
  intro root
  refine firedLogNode.induct v o
    (fun n => ∀ e ∈ firedLogNode v o n, ∃ m, e = (m, firedCount v m))
    (fun cs => ∀ e ∈ firedLogChildren v o cs, ∃ m, e = (m, firedCount v m))
    ?dc ?hd ?pa ?cb ?qt ?ls ?li ?hr ?tx ?bd ?it ?cd ?lk ?im ?nl ?nil ?cons root
  case nil => intro e he; exact absurd he (List.not_mem_nil e)
  case cons =>
    intro a r ih1 ih2 e he
    simp only [firedLogChildren] at he
    rcases List.mem_append.1 he with h1 | h1
    · exact ih1 e h1
    · exact ih2 e h1
  case dc | pa | qt | bd | it =>
    intro cs p ih e he
    simp only [firedLogNode] at he
    rcases logAssemble_mem v o _ _ _ he with h1 | h1
    · exact ih e h1
    · exact ⟨_, h1⟩
  case hd =>
    intro l cs p ih e he
    simp only [firedLogNode] at he
    rcases logAssemble_mem v o _ _ _ he with h1 | h1
    · exact ih e h1
    · exact ⟨_, h1⟩
  case ls =>
    intro or st mk cs p ih e he
    simp only [firedLogNode] at he
    rcases logAssemble_mem v o _ _ _ he with h1 | h1
    · exact ih e h1
    · exact ⟨_, h1⟩
  case li =>
    intro ck cs p ih e he
    simp only [firedLogNode] at he
    rcases logAssemble_mem v o _ _ _ he with h1 | h1
    · exact ih e h1
    · exact ⟨_, h1⟩
  case lk =>
    intro u cs p ih e he
    simp only [firedLogNode] at he
    rcases logAssemble_mem v o _ _ _ he with h1 | h1
    · exact ih e h1
    · exact ⟨_, h1⟩
  case cb =>
    intro val lg p e he
    simp only [firedLogNode] at he
    rcases logAssemble_mem v o _ _ _ he with h1 | h1
    · exact absurd h1 (List.not_mem_nil e)
    · exact ⟨_, h1⟩
  case hr =>
    intro p e he
    simp only [firedLogNode] at he
    rcases logAssemble_mem v o _ _ _ he with h1 | h1
    · exact absurd h1 (List.not_mem_nil e)
    · exact ⟨_, h1⟩
  case tx =>
    intro val p e he
    simp only [firedLogNode] at he
    rcases logAssemble_mem v o _ _ _ he with h1 | h1
    · exact absurd h1 (List.not_mem_nil e)
    · exact ⟨_, h1⟩
  case cd =>
    intro val p e he
    simp only [firedLogNode] at he
    rcases logAssemble_mem v o _ _ _ he with h1 | h1
    · exact absurd h1 (List.not_mem_nil e)
    · exact ⟨_, h1⟩
  case im =>
    intro u al p e he
    simp only [firedLogNode] at he
    rcases logAssemble_mem v o _ _ _ he with h1 | h1
    · exact absurd h1 (List.not_mem_nil e)
    · exact ⟨_, h1⟩
  case nl =>
    intro p e he
    simp only [firedLogNode] at he
    rcases logAssemble_mem v o _ _ _ he with h1 | h1
    · exact absurd h1 (List.not_mem_nil e)
    · exact ⟨_, h1⟩

/-- C9 (counterexample).  The claim says at most one callback fires per
visit, the fallback only when no kind-specific callback matches.  False:
when the kind-specific callback is present but returns `undefined`, the
dispatch *also* invokes the fallback (`result !== undefined ? result :
visitor.visitNode?.(node)`).  Traversing a single text node with a
`visitText` returning `undefined` and a defined `visitNode` fires two
callbacks for that one visit. -/
theorem c9_fallback_fires_after_undefined_specific :
    ¬ (∀ (v : Visitor Nat) (o : TraversalOptions Nat) (root : PNode),
        ∀ e ∈ firedLogNode v o root,
          e.2 ≤ 1 ∧ (firedFallback v e.1 = true → specificCb v e.1 = none)) := by
  intro h
  have h2 := h { visitText := some fun _ => none, visitNode := some fun _ => some 0 }
    ⟨true, true, none⟩ (.text ['x'] ⟨1, 1, 0⟩) (.text ['x'] ⟨1, 1, 0⟩, 2)
    (by
      rw [show firedLogNode
            { visitText := some fun _ => none, visitNode := some fun _ => some 0 }
            (⟨true, true, none⟩ : TraversalOptions Nat) (.text ['x'] ⟨1, 1, 0⟩) =
          [(.text ['x'] ⟨1, 1, 0⟩, 2)] from rfl]
      exact List.mem_singleton_self _)
  exact absurd h2.1 (by decide)

/-- C9 (amended).  During one traverse, each visited (and filter-passing)
node gets exactly one dispatch, in which at most *two* callbacks fire: the
kind-specific callback whenever one is present for the node's kind, and the
fallback exactly when no kind-specific callback produced a defined result
(absent, or present but returning `undefined`).  When the kind-specific
callback returns a defined value, exactly one callback fires; when no
kind-specific callback matches, at most the fallback fires. -/
theorem c9_amended_dispatch_bounds {T : Type} (v : Visitor T)
    (o : TraversalOptions T) (root : PNode) :
    ∀ e ∈ firedLogNode v o root,
      e.2 ≤ 2 ∧
      (firedFallback v e.1 = true ↔
        specificResult v e.1 = none ∧ v.visitNode.isSome = true) ∧
      ((specificResult v e.1).isSome = true → e.2 = 1) ∧
      (specificCb v e.1 = none → e.2 ≤ 1) := by
  intro e he
  obtain ⟨m, rfl⟩ := firedLog_shape v o root e he
  refine ⟨?_, ?_, ?_, ?_⟩
  · unfold firedCount
    split <;> split <;> simp
  · simp [firedFallback, Bool.and_eq_true, Option.isNone_iff_eq_none]
  · intro hs
    have h1 : firedSpecific v m = true := by
      unfold firedSpecific
      unfold specificResult at hs
      cases hcb : specificCb v m
      · rw [hcb] at hs; simp at hs
      · simp
    have h2 : firedFallback v m = false := by
      unfold firedFallback
      simp [Option.isNone_iff_eq_none]
      intro hnone
      rw [hnone] at hs; simp at hs
    simp [firedCount, h1, h2]
  · intro hnone
    have h1 : firedSpecific v m = false := by simp [firedSpecific, hnone]
    have h2 : firedCount v m = if firedFallback v m then 1 else 0 := by
      simp [firedCount, h1]
    rw [h2]
    split <;> simp

/-- Witness for C9 (amended): a traverse of one text node with only the
fallback callback supplied dispatches once and fires exactly one callback. -/
theorem c9_amended_dispatch_bounds_witness :
    ((PNode.text ['x'] ⟨1, 1, 0⟩, 1) : PNode × Nat).2 ≤ 2 ∧
      (firedFallback { visitNode := some fun _ => some (0 : Nat) }
          (PNode.text ['x'] ⟨1, 1, 0⟩) = true ↔
        specificResult { visitNode := some fun _ => some (0 : Nat) }
            (PNode.text ['x'] ⟨1, 1, 0⟩) = none ∧
          (Visitor.visitNode { visitNode := some fun _ => some (0 : Nat) }).isSome = true) ∧
      ((specificResult { visitNode := some fun _ => some (0 : Nat) }
          (PNode.text ['x'] ⟨1, 1, 0⟩)).isSome = true →
        ((PNode.text ['x'] ⟨1, 1, 0⟩, 1) : PNode × Nat).2 = 1) ∧
      (specificCb { visitNode := some fun _ => some (0 : Nat) }
          (PNode.text ['x'] ⟨1, 1, 0⟩) = none →
        ((PNode.text ['x'] ⟨1, 1, 0⟩, 1) : PNode × Nat).2 ≤ 1) :=
  c9_amended_dispatch_bounds { visitNode := some fun _ => some 0 }
    ⟨true, true, none⟩ (.text ['x'] ⟨1, 1, 0⟩) (.text ['x'] ⟨1, 1, 0⟩, 1)
    (by
      rw [show firedLogNode { visitNode := some fun _ => some (0 : Nat) }
            (⟨true, true, none⟩ : TraversalOptions Nat) (.text ['x'] ⟨1, 1, 0⟩) =
          [(.text ['x'] ⟨1, 1, 0⟩, 1)] from rfl]
      exact List.mem_singleton_self _)


theorem lineColAux_nil (k : Nat) (p : Nat × Nat) : lineColAux [] k p = p := by
  cases k <;> rfl

theorem lineColAux_add (l : List Char) (o k : Nat) (p : Nat × Nat) :
    lineColAux l (o + k) p = lineColAux (l.drop o) k (lineColAux l o p) := by
  induction l generalizing o p with
  | nil => rw [lineColAux_nil, lineColAux_nil, List.drop_nil, lineColAux_nil]
  | cons c t ih =>
    cases o with
    | zero => rw [Nat.zero_add]; rfl
    | succ o2 =>
      have h1 : o2 + 1 + k = (o2 + k) + 1 := by omega
      rw [h1]
      show lineColAux t (o2 + k) (if c = '\n' then (p.1 + 1, 1) else (p.1, p.2 + 1)) =
        lineColAux ((c :: t).drop (o2 + 1)) k (lineColAux (c :: t) (o2 + 1) p)
      rw [ih]
      rfl

theorem lineColAux_text (v r : List Char) (p : Nat × Nat) (hc : ∀ c ∈ v, c ≠ '\n') :
    lineColAux (v ++ r) v.length p = (p.1, p.2 + v.length) := by
  induction v generalizing p with
  | nil => simp [lineColAux]
  | cons c v2 ih =>
    have hcne : c ≠ '\n' := hc c (List.mem_cons_self c v2)
    show lineColAux (v2 ++ r) v2.length (if c = '\n' then (p.1 + 1, 1) else (p.1, p.2 + 1)) =
      (p.1, p.2 + (v2.length + 1))
    rw [if_neg hcne, ih _ (fun d hd => hc d (List.mem_cons_of_mem c hd))]
    show (p.1, p.2 + 1 + v2.length) = (p.1, p.2 + (v2.length + 1))
    rw [Nat.add_assoc, Nat.add_comm 1 v2.length]

theorem lineColAux_one (c : Char) (r : List Char) (p : Nat × Nat) :
    lineColAux (c :: r) 1 p = if c = '\n' then (p.1 + 1, 1) else (p.1, p.2 + 1) := by
  simp [lineColAux]

theorem atEnd_rest_nil (st : LexSt) (hE : st.atEnd = true) : st.rest = [] := by
  rw [LexSt.atEnd, decide_eq_true_eq] at hE
  exact List.drop_eq_nil_of_le hE

theorem concatValues_cons (t : Token) (ts : List Token) :
    concatValues (t :: ts) = t.value ++ concatValues ts := by
  simp [concatValues]

theorem lexLoop_cat :
    ∀ (fuel : Nat) (st : LexSt), 1 ≤ st.column → ∀ ts : List Token,
      lexLoop st fuel = some ts →
      concatValues ts = st.rest ∧
      ∃ pre eofTok, ts = pre ++ [eofTok] ∧ eofTok.type = .eof ∧ eofTok.value = [] ∧
        ∀ tk ∈ pre, tk.type ≠ .eof ∧ tk.type ≠ .heading ∧ tk.type ≠ .quote ∧
          tk.type ≠ .list_item := by
  intro fuel
  induction fuel with
  | zero =>
    intro st hcol ts h
    rw [lexLoop] at h
    split at h
    · rename_i hE
      injection h with h2
      subst h2
      refine ⟨?_, [], createToken st .eof [], rfl, rfl, rfl, by simp⟩
      rw [show concatValues [createToken st .eof []] = [] from rfl,
        atEnd_rest_nil st hE]
    · exact absurd h (by simp)
  | succ f ih =>
    intro st hcol ts h
    rw [lexLoop] at h
    split at h
    · rename_i hE
      injection h with h2
      subst h2
      refine ⟨?_, [], createToken st .eof [], rfl, rfl, rfl, by simp⟩
      rw [show concatValues [createToken st .eof []] = [] from rfl,
        atEnd_rest_nil st hE]
    · rename_i hE
      have hEf : st.atEnd = false := by
        cases hb : st.atEnd
        · rfl
        · exact absurd hb hE
      obtain ⟨ts2, hts2, rfl⟩ := Option.map_eq_some'.1 h
      obtain ⟨hin, hcat, hoff, hc1, hteof, hth, htq, htli, _hnn, _hnl⟩ :=
        scanToken_step st hEf hcol (scanToken st).1 (scanToken st).2 rfl
      obtain ⟨hcat2, pre2, eof2, hsplit, heof2, hval2, hpre2⟩ :=
        ih (scanToken st).2 hc1 ts2 hts2
      refine ⟨?_, (scanToken st).1 :: pre2, eof2, by rw [hsplit]; rfl, heof2, hval2, ?_⟩
      · rw [concatValues_cons, hcat2, hcat]
      · intro tk htk
        rcases List.mem_cons.1 htk with h1 | h1
        · subst h1
          exact ⟨hteof, hth, htq, htli⟩
        · exact hpre2 tk h1

theorem lexLoop_pos :
    ∀ (fuel : Nat) (st : LexSt), 1 ≤ st.column → st.offset ≤ st.input.length →
      (st.line, st.column) = lineColAt st.input st.offset →
      ∀ ts : List Token, lexLoop st fuel = some ts →
      ∀ (a : List Token) (t : Token) (b : List Token), ts = a ++ t :: b →
        t.position.offset = st.offset + (concatValues a).length ∧
        (t.position.line, t.position.column) =
          lineColAt st.input (t.position.offset + if t.type = .newline then 1 else 0) := by
  intro fuel
  induction fuel with
  | zero =>
    intro st hcol hoffle hlin ts h a t b hsplit
    rw [lexLoop] at h
    split at h
    · rename_i hE
      injection h with h2
      subst h2
      cases a with
      | nil =>
        simp only [List.nil_append] at hsplit
        injection hsplit with h3 h4
        subst h3
        constructor
        · show st.offset - 0 = st.offset + (concatValues []).length
          rfl
        · show (st.line, max 1 (st.column - 0)) =
            lineColAt st.input (st.offset - 0 + if TokenType.eof = TokenType.newline then 1 else 0)
          rw [if_neg (by decide : TokenType.eof ≠ TokenType.newline)]
          have hmax : max 1 (st.column - 0) = st.column := by omega
          rw [hmax]
          exact hlin
      | cons x a2 =>
        have hlen := congrArg List.length hsplit
        simp at hlen
    · exact absurd h (by simp)
  | succ f ih =>
    intro st hcol hoffle hlin ts h a t b hsplit
    rw [lexLoop] at h
    split at h
    · rename_i hE
      injection h with h2
      subst h2
      cases a with
      | nil =>
        simp only [List.nil_append] at hsplit
        injection hsplit with h3 h4
        subst h3
        constructor
        · show st.offset - 0 = st.offset + (concatValues []).length
          rfl
        · show (st.line, max 1 (st.column - 0)) =
            lineColAt st.input (st.offset - 0 + if TokenType.eof = TokenType.newline then 1 else 0)
          rw [if_neg (by decide : TokenType.eof ≠ TokenType.newline)]
          have hmax : max 1 (st.column - 0) = st.column := by omega
          rw [hmax]
          exact hlin
      | cons x a2 =>
        have hlen := congrArg List.length hsplit
        simp at hlen
    · rename_i hE
      have hEf : st.atEnd = false := by
        cases hb : st.atEnd
        · rfl
        · exact absurd hb hE
      obtain ⟨ts2, hts2, rfl⟩ := Option.map_eq_some'.1 h
      obtain ⟨hin, hcat, hoff, hc1, hteof, hth, htq, htli, hnn, hnl⟩ :=
        scanToken_step st hEf hcol (scanToken st).1 (scanToken st).2 rfl
      -- the new cursor stays within the input
      have hoffle2 : (scanToken st).2.offset ≤ (scanToken st).2.input.length := by
        have hlenc := congrArg List.length hcat
        rw [hin]
        simp only [List.length_append, LexSt.rest, List.length_drop] at hlenc
        omega
      -- the line/column invariant is preserved
      have hlin2 : ((scanToken st).2.line, (scanToken st).2.column) =
          lineColAt (scanToken st).2.input (scanToken st).2.offset := by
        rw [hin, hoff]
        by_cases hty : (scanToken st).1.type = .newline
        · obtain ⟨hval, hline2, hcol2, _⟩ := hnl hty
          rw [hline2, hcol2, hval]
          show (st.line + 1, 1) = lineColAt st.input (st.offset + 1)
          rw [lineColAt, lineColAux_add, ← lineColAt, ← hlin]
          have hrw : st.input.drop st.offset = '\n' :: (scanToken st).2.rest := by
            rw [show st.input.drop st.offset = st.rest from rfl, ← hcat, hval]
            rfl
          rw [hrw, lineColAux_one, if_pos rfl]
        · obtain ⟨hline2, hcol2, _, hchars⟩ := hnn hty
          rw [hline2, hcol2]
          rw [lineColAt, lineColAux_add, ← lineColAt, ← hlin]
          have hrw : st.input.drop st.offset =
              (scanToken st).1.value ++ (scanToken st).2.rest := by
            rw [show st.input.drop st.offset = st.rest from rfl, ← hcat]
          rw [hrw, lineColAux_text _ _ _ hchars]
      cases a with
      | nil =>
        simp only [List.nil_append] at hsplit
        injection hsplit with h3 h4
        subst h3
        constructor
        · by_cases hty : (scanToken st).1.type = .newline
          · obtain ⟨_, _, _, hpos⟩ := hnl hty
            rw [hpos]
            rfl
          · obtain ⟨_, _, hpos, _⟩ := hnn hty
            rw [hpos]
            rfl
        · by_cases hty : (scanToken st).1.type = .newline
          · obtain ⟨hval, _, _, hpos⟩ := hnl hty
            rw [hpos, if_pos hty]
            show (st.line + 1, 1) = lineColAt st.input (st.offset + 1)
            rw [lineColAt, lineColAux_add, ← lineColAt, ← hlin]
            have hrw : st.input.drop st.offset = '\n' :: (scanToken st).2.rest := by
              rw [show st.input.drop st.offset = st.rest from rfl, ← hcat, hval]
              rfl
            rw [hrw, lineColAux_one, if_pos rfl]
          · obtain ⟨_, _, hpos, _⟩ := hnn hty
            rw [hpos, if_neg hty]
            show (st.line, st.column) = lineColAt st.input (st.offset + 0)
            rw [Nat.add_zero]
            exact hlin
      | cons x a2 =>
        rw [List.cons_append] at hsplit
        injection hsplit with h3 h4
        subst h3
        obtain ⟨hoffT, hpair⟩ := ih (scanToken st).2 hc1 hoffle2 hlin2 ts2 hts2 a2 t b h4
        rw [hin] at hpair
        refine ⟨?_, hpair⟩
        rw [hoffT, hoff, concatValues_cons]
        simp
        omega

theorem concatValues_append (xs ys : List Token) :
    concatValues (xs ++ ys) = concatValues xs ++ concatValues ys := by
  simp [concatValues]

/-- C2 (counterexample).  The claim quantifies over every input string, but
`tokenize` does not return on every input: on the single vertical-tab
character no fuel bound makes the loop finish (see C3), so there is no token
list whose literals could concatenate to the normalized input. -/
theorem c2_no_tokens_for_vertical_tab :
    ¬ (∀ s : List Char, ∃ (fuel : Nat) (ts : List Token),
        tokenizeF fuel s = some ts ∧
        concatValues ts.dropLast = normalizeNewlines s) := by
  intro hclaim
  obtain ⟨fuel, ts, hts, _⟩ := hclaim [Char.ofNat 0x0b]
  rw [tokenizeF_vt_none fuel] at hts
  exact Option.noConfusion hts

/-- C2 (amended).  On every input on which `tokenize` does return, the
claim holds: concatenating the literals of all tokens but the final
end-of-stream token, in order, reproduces the input with CR/CRLF normalized
to LF (the final token is a zero-length end-of-stream marker). -/
theorem c2_amended_lossless (s : List Char) (fuel : Nat) (ts : List Token)
    (h : tokenizeF fuel s = some ts) :
    concatValues ts.dropLast = normalizeNewlines s ∧
    ∃ pre eofTok, ts = pre ++ [eofTok] ∧ eofTok.type = .eof ∧ eofTok.value = [] := by
  rw [tokenizeF] at h
  obtain ⟨hcat, pre, eofTok, hsplit, heof, hval, _⟩ :=
    lexLoop_cat fuel ⟨normalizeNewlines s, 1, 1, 0⟩ (Nat.le_refl 1) ts h
  have hrest : (⟨normalizeNewlines s, 1, 1, 0⟩ : LexSt).rest = normalizeNewlines s := rfl
  rw [hrest] at hcat
  refine ⟨?_, pre, eofTok, hsplit, heof, hval⟩
  rw [hsplit]
  have hdl : (pre ++ [eofTok]).dropLast = pre := by simp
  rw [hdl]
  rw [hsplit, concatValues_append] at hcat
  rw [show concatValues [eofTok] = eofTok.value ++ [] from rfl, hval] at hcat
  simpa using hcat

/-- Witness for C2 (amended) at the concrete input `"a\nb"`. -/
theorem c2_amended_lossless_witness :
    concatValues ((tokenizeF 100 ['a', '\n', 'b']).getD []).dropLast =
      normalizeNewlines ['a', '\n', 'b'] ∧
    ∃ pre eofTok, (tokenizeF 100 ['a', '\n', 'b']).getD [] = pre ++ [eofTok] ∧
      eofTok.type = .eof ∧ eofTok.value = [] :=
  c2_amended_lossless ['a', '\n', 'b'] 100 _ (by decide)

/-- C7 (counterexample).  The claim says every token reports the line and
column of the first character of its literal.  The newline token does not:
`scanNewline` increments the line counter *before* creating the token, so
the newline at the end of line 1 of `"a\n"` reports line 2, column 1 — the
position of the character after it, not its own. -/
theorem c7_newline_reports_next_line :
    ¬ (∀ (s : List Char) (fuel : Nat) (ts : List Token),
        tokenizeF fuel s = some ts →
        ∀ t ∈ ts, (t.position.line, t.position.column) =
          lineColAt (normalizeNewlines s) t.position.offset) := by
  intro hclaim
  have h2 := hclaim ['a', '\n'] 10 ((tokenizeF 10 ['a', '\n']).getD []) (by decide)
    ⟨.newline, ['\n'], ⟨2, 1, 1⟩, 1, ['\n']⟩ (by decide)
  exact absurd h2 (by decide)

/-- C7 (amended).  Every token's reported offset is the offset of the first
character of its literal (the total length of all earlier literals); a
non-newline token also reports that character's line and column, while a
newline token reports the line/column of the character immediately after
it (the next line's column 1). -/
theorem c7_amended_token_positions (s : List Char) (fuel : Nat) (ts : List Token)
    (h : tokenizeF fuel s = some ts) :
    ∀ (a : List Token) (t : Token) (b : List Token), ts = a ++ t :: b →
      t.position.offset = (concatValues a).length ∧
      (t.position.line, t.position.column) =
        lineColAt (normalizeNewlines s)
          (t.position.offset + if t.type = .newline then 1 else 0) := by
  intro a t b hsplit
  rw [tokenizeF] at h
  have hlin : ((⟨normalizeNewlines s, 1, 1, 0⟩ : LexSt).line,
      (⟨normalizeNewlines s, 1, 1, 0⟩ : LexSt).column) =
      lineColAt (⟨normalizeNewlines s, 1, 1, 0⟩ : LexSt).input
        (⟨normalizeNewlines s, 1, 1, 0⟩ : LexSt).offset := by
    simp [lineColAt, lineColAux]
  obtain ⟨hoffT, hpair⟩ :=
    lexLoop_pos fuel ⟨normalizeNewlines s, 1, 1, 0⟩ (Nat.le_refl 1)
      (Nat.zero_le _) hlin ts h a t b hsplit
  refine ⟨?_, hpair⟩
  simpa using hoffT

/-- Witness for C7 (amended): the newline token of `"a\nb"` (split after
the first text token) reports offset 1 and the line/column of the
character after it, line 2 column 1. -/
theorem c7_amended_token_positions_witness :
    (⟨.newline, ['\n'], ⟨2, 1, 1⟩, 1, ['\n']⟩ : Token).position.offset =
      (concatValues [⟨.text, ['a'], ⟨1, 1, 0⟩, 1, ['a']⟩]).length ∧
    ((⟨.newline, ['\n'], ⟨2, 1, 1⟩, 1, ['\n']⟩ : Token).position.line,
      (⟨.newline, ['\n'], ⟨2, 1, 1⟩, 1, ['\n']⟩ : Token).position.column) =
      lineColAt (normalizeNewlines ['a', '\n', 'b'])
        ((⟨.newline, ['\n'], ⟨2, 1, 1⟩, 1, ['\n']⟩ : Token).position.offset +
          if (⟨.newline, ['\n'], ⟨2, 1, 1⟩, 1, ['\n']⟩ : Token).type = .newline
          then 1 else 0) :=
  c7_amended_token_positions ['a', '\n', 'b'] 100
    ((tokenizeF 100 ['a', '\n', 'b']).getD []) (by decide)
    [⟨.text, ['a'], ⟨1, 1, 0⟩, 1, ['a']⟩] ⟨.newline, ['\n'], ⟨2, 1, 1⟩, 1, ['\n']⟩
    [⟨.text, ['b'], ⟨2, 1, 2⟩, 1, ['b']⟩, ⟨.eof, [], ⟨2, 2, 3⟩, 0, []⟩] (by decide)


theorem setParentA_length (a : List ARec) (c pid : Nat) :
    (setParentA a c pid).length = a.length := by
  simp [setParentA]

theorem setParentsA_length (a : List ARec) (pid : Nat) (cs : List Nat) :
    (setParentsA a pid cs).length = a.length := by
  induction cs generalizing a with
  | nil => rfl
  | cons x cs ih =>
    show (setParentsA (setParentA a x pid) pid cs).length = a.length
    rw [ih, setParentA_length]

theorem setParentsA_getD (a : List ARec) (pid : Nat) (cs : List Nat) (c : Nat)
    (hall : ∀ x ∈ cs, x < a.length) :
    (setParentsA a pid cs).getD c dfltRec =
      if c ∈ cs then { a.getD c dfltRec with parentId := some pid }
      else a.getD c dfltRec := by
  induction cs generalizing a with
  | nil => simp [setParentsA]
  | cons x cs ih =>
    show (setParentsA (setParentA a x pid) pid cs).getD c dfltRec = _
    have hx : x < a.length := hall x (List.mem_cons_self x cs)
    have hall2 : ∀ y ∈ cs, y < (setParentA a x pid).length := by
      rw [setParentA_length]
      exact fun y hy => hall y (List.mem_cons_of_mem x hy)
    rw [ih _ hall2]
    by_cases hc : c ∈ cs
    · rw [if_pos hc, if_pos (List.mem_cons_of_mem x hc)]
      by_cases hcx : c = x
      · subst hcx
        have : (setParentA a c pid).getD c dfltRec =
            { a.getD c dfltRec with parentId := some pid } := by
          simp [setParentA, List.getD, List.getElem?_set_self, hx]
        rw [this]
      · have : (setParentA a x pid).getD c dfltRec = a.getD c dfltRec := by
          simp [setParentA, List.getD, List.getElem?_set_ne (fun h => hcx (h.symm)) ]
        rw [this]
    · rw [if_neg hc]
      by_cases hcx : c = x
      · subst hcx
        rw [if_pos (List.mem_cons_self c cs)]
        simp [setParentA, List.getD, List.getElem?_set_self, hx]
      · rw [if_neg (by simp [hcx, hc])]
        simp [setParentA, List.getD, List.getElem?_set_ne (fun h => hcx (h.symm))]

theorem alloc_spec (a : List ARec) (ty : TokenType) (cs : List Nat)
    (hInv : ∀ i, i < a.length → ∀ c ∈ (a.getD i dfltRec).childIds,
      c < i ∧ (a.getD c dfltRec).parentId = some i)
    (hcs : ∀ r ∈ cs, r < a.length ∧ (a.getD r dfltRec).parentId = none) :
    (allocA a ty cs).2 = a.length ∧
    (allocA a ty cs).1.length = a.length + 1 ∧
    (∀ i, i < (allocA a ty cs).1.length →
      ∀ c ∈ ((allocA a ty cs).1.getD i dfltRec).childIds,
        c < i ∧ ((allocA a ty cs).1.getD c dfltRec).parentId = some i) ∧
    (∀ i, i < a.length → i ∉ cs →
      (allocA a ty cs).1.getD i dfltRec = a.getD i dfltRec) ∧
    ((allocA a ty cs).1.getD a.length dfltRec).parentId = none := by
  have hlt : ∀ x ∈ cs, x < (a ++ [(ARec.mk ty none cs)]).length := by
    intro x hx
    have := (hcs x hx).1
    simp only [List.length_append, List.length_cons, List.length_nil]
    omega
  have hget : ∀ c, (allocA a ty cs).1.getD c dfltRec =
      if c ∈ cs then { (a ++ [(ARec.mk ty none cs)]).getD c dfltRec with parentId := some a.length }
      else (a ++ [(ARec.mk ty none cs)]).getD c dfltRec := by
    intro c
    exact setParentsA_getD _ _ _ _ hlt
  have hbase_lt : ∀ c, c < a.length →
      (a ++ [(ARec.mk ty none cs)]).getD c dfltRec = a.getD c dfltRec := by
    intro c hc
    simp [List.getD, List.getElem?_append_left hc]
  have hbase_new : (a ++ [(ARec.mk ty none cs)]).getD a.length dfltRec = (ARec.mk ty none cs) := by
    simp [List.getD]
  have hlen : (allocA a ty cs).1.length = a.length + 1 := by
    show (setParentsA _ _ _).length = _
    rw [setParentsA_length]
    simp
  refine ⟨rfl, hlen, ?_, ?_, ?_⟩
  · intro i hi c hc
    rw [hlen] at hi
    by_cases hia : i = a.length
    · subst hia
      have hidi : a.length ∉ cs := fun hmem => absurd (hcs _ hmem).1 (Nat.lt_irrefl _)
      have hgi : (allocA a ty cs).1.getD a.length dfltRec = ARec.mk ty none cs := by
        rw [hget a.length, if_neg hidi, hbase_new]
      rw [hgi] at hc
      have hcc := hcs c hc
      refine ⟨hcc.1, ?_⟩
      rw [hget c, if_pos hc]
    · have hia2 : i < a.length := by omega
      have hgi : ((allocA a ty cs).1.getD i dfltRec).childIds =
          (a.getD i dfltRec).childIds := by
        rw [hget i]
        by_cases him : i ∈ cs
        · rw [if_pos him, hbase_lt i hia2]
        · rw [if_neg him, hbase_lt i hia2]
      rw [hgi] at hc
      obtain ⟨hci, hpar⟩ := hInv i hia2 c hc
      refine ⟨hci, ?_⟩
      have hcnotin : c ∉ cs := by
        intro hmem
        have h0 := (hcs c hmem).2
        exact Option.noConfusion (h0 ▸ hpar)
      rw [hget c, if_neg hcnotin, hbase_lt c (by omega : c < a.length)]
      exact hpar
  · intro i hi hnotin
    rw [hget i, if_neg hnotin, hbase_lt i hi]
  · have hidi : a.length ∉ cs := fun hmem => absurd (hcs _ hmem).1 (Nat.lt_irrefl _)
    rw [hget a.length, if_neg hidi, hbase_new]

theorem buildNode_spec (n : PNode) (a : List ARec) :
    (∀ i, i < a.length → ∀ c ∈ (a.getD i dfltRec).childIds,
        c < i ∧ (a.getD c dfltRec).parentId = some i) →
    a.length ≤ (buildNode n a).2 ∧
    (buildNode n a).1.length = (buildNode n a).2 + 1 ∧
    (∀ i, i < (buildNode n a).1.length →
      ∀ c ∈ ((buildNode n a).1.getD i dfltRec).childIds,
        c < i ∧ ((buildNode n a).1.getD c dfltRec).parentId = some i) ∧
    (∀ i, i < a.length → (buildNode n a).1.getD i dfltRec = a.getD i dfltRec) ∧
    ((buildNode n a).1.getD (buildNode n a).2 dfltRec).parentId = none := by
  refine buildNode.induct
    (fun n a =>
      (∀ i, i < a.length → ∀ c ∈ (a.getD i dfltRec).childIds,
          c < i ∧ (a.getD c dfltRec).parentId = some i) →
      a.length ≤ (buildNode n a).2 ∧
      (buildNode n a).1.length = (buildNode n a).2 + 1 ∧
      (∀ i, i < (buildNode n a).1.length →
        ∀ c ∈ ((buildNode n a).1.getD i dfltRec).childIds,
          c < i ∧ ((buildNode n a).1.getD c dfltRec).parentId = some i) ∧
      (∀ i, i < a.length → (buildNode n a).1.getD i dfltRec = a.getD i dfltRec) ∧
      ((buildNode n a).1.getD (buildNode n a).2 dfltRec).parentId = none)
    (fun ty cs a =>
      (∀ i, i < a.length → ∀ c ∈ (a.getD i dfltRec).childIds,
          c < i ∧ (a.getD c dfltRec).parentId = some i) →
      a.length ≤ (buildStep ty cs a).2 ∧
      (buildStep ty cs a).1.length = (buildStep ty cs a).2 + 1 ∧
      (∀ i, i < (buildStep ty cs a).1.length →
        ∀ c ∈ ((buildStep ty cs a).1.getD i dfltRec).childIds,
          c < i ∧ ((buildStep ty cs a).1.getD c dfltRec).parentId = some i) ∧
      (∀ i, i < a.length → (buildStep ty cs a).1.getD i dfltRec = a.getD i dfltRec) ∧
      ((buildStep ty cs a).1.getD (buildStep ty cs a).2 dfltRec).parentId = none)
    (fun l a =>
      (∀ i, i < a.length → ∀ c ∈ (a.getD i dfltRec).childIds,
          c < i ∧ (a.getD c dfltRec).parentId = some i) →
      a.length ≤ (buildList l a).1.length ∧
      (∀ i, i < (buildList l a).1.length →
        ∀ c ∈ ((buildList l a).1.getD i dfltRec).childIds,
          c < i ∧ ((buildList l a).1.getD c dfltRec).parentId = some i) ∧
      (∀ i, i < a.length → (buildList l a).1.getD i dfltRec = a.getD i dfltRec) ∧
      (∀ r ∈ (buildList l a).2, a.length ≤ r ∧ r < (buildList l a).1.length ∧
        ((buildList l a).1.getD r dfltRec).parentId = none))
    ?_ ?_ ?_ ?_ ?_ ?_ ?_ ?_ ?_ ?_ ?_ ?_ ?_ ?_ ?_ ?_ ?_ ?_ n a
  · intro cs p a ih hInv
    simp only [buildNode]
    exact ih hInv
  · intro l cs p a ih hInv
    simp only [buildNode]
    exact ih hInv
  · intro cs p a ih hInv
    simp only [buildNode]
    exact ih hInv
  · intro v lg p a hInv
    simp only [buildNode]
    obtain ⟨h1, h2, h3, h4, h5⟩ := alloc_spec a _ [] hInv (by simp)
    exact ⟨by omega, by omega, h3, fun i hi => h4 i hi (by simp), h5⟩
  · intro cs p a ih hInv
    simp only [buildNode]
    exact ih hInv
  · intro ord stt mk cs p a ih hInv
    simp only [buildNode]
    exact ih hInv
  · intro ck cs p a ih hInv
    simp only [buildNode]
    exact ih hInv
  · intro p a hInv
    simp only [buildNode]
    obtain ⟨h1, h2, h3, h4, h5⟩ := alloc_spec a _ [] hInv (by simp)
    exact ⟨by omega, by omega, h3, fun i hi => h4 i hi (by simp), h5⟩
  · intro v p a hInv
    simp only [buildNode]
    obtain ⟨h1, h2, h3, h4, h5⟩ := alloc_spec a _ [] hInv (by simp)
    exact ⟨by omega, by omega, h3, fun i hi => h4 i hi (by simp), h5⟩
  · intro cs p a ih hInv
    simp only [buildNode]
    exact ih hInv
  · intro cs p a ih hInv
    simp only [buildNode]
    exact ih hInv
  · intro v p a hInv
    simp only [buildNode]
    obtain ⟨h1, h2, h3, h4, h5⟩ := alloc_spec a _ [] hInv (by simp)
    exact ⟨by omega, by omega, h3, fun i hi => h4 i hi (by simp), h5⟩
  · intro u cs p a ih hInv
    simp only [buildNode]
    exact ih hInv
  · intro u al p a hInv
    simp only [buildNode]
    obtain ⟨h1, h2, h3, h4, h5⟩ := alloc_spec a _ [] hInv (by simp)
    exact ⟨by omega, by omega, h3, fun i hi => h4 i hi (by simp), h5⟩
  · intro p a hInv
    simp only [buildNode]
    obtain ⟨h1, h2, h3, h4, h5⟩ := alloc_spec a _ [] hInv (by simp)
    exact ⟨by omega, by omega, h3, fun i hi => h4 i hi (by simp), h5⟩
  · intro ty cs a ih hInv
    simp only [buildStep]
    obtain ⟨hle, hInv2, hunch, hroots⟩ := ih hInv
    obtain ⟨h1, h2, h3, h4, h5⟩ :=
      alloc_spec (buildList cs a).1 ty (buildList cs a).2 hInv2
        (fun r hr => ⟨(hroots r hr).2.1, (hroots r hr).2.2⟩)
    refine ⟨by omega, by omega, h3, ?_, h5⟩
    intro i hi
    rw [h4 i (by omega) (fun hmem => by have := (hroots i hmem).1; omega), hunch i hi]
  · intro a hInv
    simp only [buildList]
    refine ⟨Nat.le_refl _, hInv, ?_, ?_⟩ <;> simp
  · intro n r a s1 ih1 ih2 hInv
    have hs1 : s1 = buildNode n a := rfl
    rw [hs1] at ih2
    simp only [buildList]
    obtain ⟨hle1, hlen1, hInv1, hunch1, hpar1⟩ := ih1 hInv
    obtain ⟨hle2, hInv2, hunch2, hroots2⟩ := ih2 hInv1
    refine ⟨by omega, hInv2, ?_, ?_⟩
    · intro i hi
      rw [hunch2 i (by omega), hunch1 i hi]
    · intro r2 hr2
      rcases List.mem_cons.1 hr2 with h | h
      · subst h
        refine ⟨hle1, by omega, ?_⟩
        rw [hunch2 _ (by omega)]
        exact hpar1
      · obtain ⟨ha, hb, hcp⟩ := hroots2 r2 h
        exact ⟨by omega, hb, hcp⟩

/-- C8.  For every tree returned by `parse`, replaying the factory calls
that construct it (arena semantics, where object identity is arena index)
yields a heap in which every child id recorded in any node's children array
refers back, via its parent field, to exactly that node's id: the
`setParentChild` side effect of each `create*` call establishes the §3
invariant by construction, and no later call re-parents an already attached
child. -/
theorem c8_parent_backref_identity (tks : List Token) (fuel : Nat) (doc : PNode)
    (cur : Nat) (h : parseF tks fuel = .ok doc cur) :
    parentOk (buildNode doc []).1 := by
  obtain ⟨_, _, hInv, _, _⟩ := buildNode_spec doc [] (by simp)
  intro i hi c hc
  obtain ⟨hci, hp⟩ := hInv i hi c hc
  exact ⟨by omega, hp⟩

/-- Witness for C8: the arena replay of the tree parsed from `'**'`. -/
theorem c8_parent_backref_identity_witness :
    parentOk (buildNode
      (PNode.document
        [PNode.paragraph
          [PNode.text ['*', '*'] ⟨1, 1, 0⟩, PNode.text [] ⟨1, 3, 2⟩]
          ⟨1, 1, 0⟩] ⟨1, 1, 0⟩) []).1 :=
  c8_parent_backref_identity ((tokenizeF 100 (String.toList "**")).getD []) 100
    (PNode.document
      [PNode.paragraph
        [PNode.text ['*', '*'] ⟨1, 1, 0⟩, PNode.text [] ⟨1, 3, 2⟩]
        ⟨1, 1, 0⟩] ⟨1, 1, 0⟩) 2 (by rfl)


theorem checkT_intro (tks : List Token) (ty : TokenType) (cur : Nat)
    (hend : atEndT tks cur = false) (hty : (peekT tks cur).type = ty) :
    checkT tks ty cur = true := by
  simp [checkT, hend, hty]

theorem consumeT_ok (tks : List Token) (ty : TokenType) (cur : Nat)
    (h : checkT tks ty cur = true) :
    consumeT tks ty cur = .ok (peekT tks cur) (cur + 1) := by
  simp [consumeT, h]

theorem parseNewlineT_ne_err (tks : List Token) (cur : Nat)
    (h : checkT tks .newline cur = true) : parseNewlineT tks cur ≠ .err := by
  simp [parseNewlineT, consumeT_ok tks .newline cur h]

theorem parseHorizontalRuleT_ne_err (tks : List Token) (cur : Nat)
    (h : checkT tks .horizontal_rule cur = true) :
    parseHorizontalRuleT tks cur ≠ .err := by
  simp [parseHorizontalRuleT, consumeT_ok tks .horizontal_rule cur h]

theorem parseCodeBlockT_ne_err (tks : List Token) (cur : Nat)
    (h : checkT tks .code_block cur = true) : parseCodeBlockT tks cur ≠ .err := by
  simp [parseCodeBlockT, consumeT_ok tks .code_block cur h]

theorem parseLinkT_ne_err (tks : List Token) (cur : Nat)
    (h : checkT tks .link cur = true) : parseLinkT tks cur ≠ .err := by
  simp [parseLinkT, consumeT_ok tks .link cur h]

theorem parseImageT_ne_err (tks : List Token) (cur : Nat)
    (h : checkT tks .image cur = true) : parseImageT tks cur ≠ .err := by
  simp [parseImageT, consumeT_ok tks .image cur h]

theorem consumeT_ne_err (tks : List Token) (ty : TokenType) (cur : Nat)
    (h : checkT tks ty cur = true) : consumeT tks ty cur ≠ .err := by
  simp [consumeT_ok tks ty cur h]

theorem checkT_intro2 (tks : List Token) (ty : TokenType) (cur : Nat)
    (hend : ¬ atEndT tks cur = true) (hty : (peekT tks cur).type = ty) :
    checkT tks ty cur = true := by
  have h2 : atEndT tks cur = false := by
    cases h3 : atEndT tks cur
    · rfl
    · exact absurd h3 hend
  simp [checkT, hty, h2]

set_option maxHeartbeats 4000000 in
/-- No reachable `consume` ever throws: every parser routine, at every fuel
and every cursor, returns something other than a `ParseError` (given, for
the routines that do consume a specific token type first, that the
dispatching caller checked that type — as every caller does). -/
theorem parser_no_err : ∀ fuel : Nat,
    (∀ tks cur, blocksLoopF tks fuel cur ≠ .err) ∧
    (∀ tks cur, parseBlockF tks fuel cur ≠ .err) ∧
    (∀ tks cur, checkT tks .heading cur = true → parseHeadingF tks fuel cur ≠ .err) ∧
    (∀ tks cur, parseParagraphF tks fuel cur ≠ .err) ∧
    (∀ tks cur, checkT tks .quote cur = true → parseQuoteF tks fuel cur ≠ .err) ∧
    (∀ tks cur, parseListF tks fuel cur ≠ .err) ∧
    (∀ tks b cur, nestedItemsF tks fuel b cur ≠ .err) ∧
    (∀ tks cur, checkT tks .list_item cur = true → parseListItemF tks fuel cur ≠ .err) ∧
    (∀ tks cur, inlinesLoopF tks fuel cur ≠ .err) ∧
    (∀ tks cur, parseInlineF tks fuel cur ≠ .err) ∧
    (∀ tks cur, checkT tks .bold cur = true → parseBoldF tks fuel cur ≠ .err) ∧
    (∀ tks cur, spanBoldLoopF tks fuel cur ≠ .err) ∧
    (∀ tks cur, checkT tks .italic cur = true → parseItalicF tks fuel cur ≠ .err) ∧
    (∀ tks cur, spanItalicLoopF tks fuel cur ≠ .err) ∧
    (∀ tks cur, checkT tks .code cur = true → parseCodeSpanF tks fuel cur ≠ .err) ∧
    (∀ tks cur, spanCodeLoopF tks fuel cur ≠ .err) ∧
    (∀ tks cur, tryParseLinkF tks fuel cur ≠ .err) ∧
    (∀ tks cur, linkTextLoopF tks fuel cur ≠ .err) ∧
    (∀ tks cur, urlLoopF tks fuel cur ≠ .err) ∧
    (∀ tks cur, altLoopF tks fuel cur ≠ .err) ∧
    (∀ tks cur, tryParseImageF tks fuel cur ≠ .err) := by
  intro fuel
  induction fuel with
  | zero =>
    refine ⟨?_, ?_, ?_, ?_, ?_, ?_, ?_, ?_, ?_, ?_, ?_, ?_, ?_, ?_, ?_, ?_, ?_, ?_, ?_, ?_, ?_⟩
    · exact fun tks cur hc => by simp only [blocksLoopF] at hc; exact ParseRes.noConfusion hc
    · exact fun tks cur hc => by simp only [parseBlockF] at hc; exact ParseRes.noConfusion hc
    · exact fun tks cur _ hc => by simp only [parseHeadingF] at hc; exact ParseRes.noConfusion hc
    · exact fun tks cur hc => by simp only [parseParagraphF] at hc; exact ParseRes.noConfusion hc
    · exact fun tks cur _ hc => by simp only [parseQuoteF] at hc; exact ParseRes.noConfusion hc
    · exact fun tks cur hc => by simp only [parseListF] at hc; exact ParseRes.noConfusion hc
    · exact fun tks b cur hc => by simp only [nestedItemsF] at hc; exact ParseRes.noConfusion hc
    · exact fun tks cur _ hc => by simp only [parseListItemF] at hc; exact ParseRes.noConfusion hc
    · exact fun tks cur hc => by simp only [inlinesLoopF] at hc; exact ParseRes.noConfusion hc
    · exact fun tks cur hc => by simp only [parseInlineF] at hc; exact ParseRes.noConfusion hc
    · exact fun tks cur _ hc => by simp only [parseBoldF] at hc; exact ParseRes.noConfusion hc
    · exact fun tks cur hc => by simp only [spanBoldLoopF] at hc; exact ParseRes.noConfusion hc
    · exact fun tks cur _ hc => by simp only [parseItalicF] at hc; exact ParseRes.noConfusion hc
    · exact fun tks cur hc => by simp only [spanItalicLoopF] at hc; exact ParseRes.noConfusion hc
    · exact fun tks cur _ hc => by simp only [parseCodeSpanF] at hc; exact ParseRes.noConfusion hc
    · exact fun tks cur hc => by simp only [spanCodeLoopF] at hc; exact ParseRes.noConfusion hc
    · exact fun tks cur hc => by simp only [tryParseLinkF] at hc; exact ParseRes.noConfusion hc
    · exact fun tks cur hc => by simp only [linkTextLoopF] at hc; exact ParseRes.noConfusion hc
    · exact fun tks cur hc => by simp only [urlLoopF] at hc; exact ParseRes.noConfusion hc
    · exact fun tks cur hc => by simp only [altLoopF] at hc; exact ParseRes.noConfusion hc
    · exact fun tks cur hc => by simp only [tryParseImageF] at hc; exact ParseRes.noConfusion hc
  | succ fuel ih =>
    obtain ⟨ihBlocks, ihBlock, ihHeading, ihPara, ihQuote, ihList, ihItems, ihItem,
      ihInlines, ihInline, ihBold, ihSpanB, ihItalic, ihSpanI, ihCode, ihSpanC,
      ihTryL, ihLText, ihUrl, ihAlt, ihTryI⟩ := ih
    refine ⟨?_, ?_, ?_, ?_, ?_, ?_, ?_, ?_, ?_, ?_, ?_, ?_, ?_, ?_, ?_, ?_, ?_, ?_, ?_, ?_, ?_⟩
    · intro tks cur hc
      simp only [blocksLoopF] at hc
      repeat' split at hc
      all_goals first
        | exact ParseRes.noConfusion hc
        | exact absurd (by assumption) (ihBlock _ _)
        | exact absurd (by assumption) (ihBlocks _ _)
    · intro tks cur hc
      simp only [parseBlockF] at hc
      repeat' split at hc
      all_goals first
        | exact ParseRes.noConfusion hc
        | exact absurd (by assumption) (ihHeading _ _ (checkT_intro2 _ _ _ (by assumption) (by assumption)))
        | exact absurd (by assumption) (parseCodeBlockT_ne_err _ _ (checkT_intro2 _ _ _ (by assumption) (by assumption)))
        | exact absurd (by assumption) (ihQuote _ _ (checkT_intro2 _ _ _ (by assumption) (by assumption)))
        | exact absurd (by assumption) (ihList _ _)
        | exact absurd (by assumption) (parseHorizontalRuleT_ne_err _ _ (checkT_intro2 _ _ _ (by assumption) (by assumption)))
        | exact absurd (by assumption) (ihPara _ _)
    · intro tks cur h hc
      simp only [parseHeadingF] at hc
      repeat' split at hc
      all_goals first
        | exact ParseRes.noConfusion hc
        | exact absurd (by assumption) (consumeT_ne_err _ _ _ (by assumption))
        | exact absurd (by assumption) (ihInlines _ _)
    · intro tks cur hc
      simp only [parseParagraphF] at hc
      repeat' split at hc
      all_goals first
        | exact ParseRes.noConfusion hc
        | exact absurd (by assumption) (ihInlines _ _)
    · intro tks cur h hc
      simp only [parseQuoteF] at hc
      repeat' split at hc
      all_goals first
        | exact ParseRes.noConfusion hc
        | exact absurd (by assumption) (consumeT_ne_err _ _ _ (by assumption))
        | exact absurd (by assumption) (ihBlocks _ _)
    · intro tks cur hc
      simp only [parseListF] at hc
      repeat' split at hc
      all_goals first
        | exact ParseRes.noConfusion hc
        | exact absurd (by assumption) (ihItems _ _ _)
    · intro tks b cur hc
      simp only [nestedItemsF] at hc
      repeat' split at hc
      all_goals first
        | exact ParseRes.noConfusion hc
        | exact absurd (by assumption) (ihItem _ _ (by simp_all))
        | exact absurd (by assumption) (ihItems _ _ _)
    · intro tks cur h hc
      simp only [parseListItemF] at hc
      repeat' split at hc
      all_goals first
        | exact ParseRes.noConfusion hc
        | exact absurd (by assumption) (consumeT_ne_err _ _ _ (by assumption))
        | exact absurd (by assumption) (ihInlines _ _)
        | exact absurd (by assumption) (ihItems _ _ _)
    · intro tks cur hc
      simp only [inlinesLoopF] at hc
      repeat' split at hc
      all_goals first
        | exact ParseRes.noConfusion hc
        | exact absurd (by assumption) (ihInline _ _)
        | exact absurd (by assumption) (ihInlines _ _)
    · intro tks cur hc
      simp only [parseInlineF] at hc
      repeat' split at hc
      all_goals first
        | exact ParseRes.noConfusion hc
        | exact absurd (by assumption) (ihBold _ _ (checkT_intro2 _ _ _ (by assumption) (by assumption)))
        | exact absurd (by assumption) (ihItalic _ _ (checkT_intro2 _ _ _ (by assumption) (by assumption)))
        | exact absurd (by assumption) (ihCode _ _ (checkT_intro2 _ _ _ (by assumption) (by assumption)))
        | exact absurd (by assumption) (parseLinkT_ne_err _ _ (checkT_intro2 _ _ _ (by assumption) (by assumption)))
        | exact absurd (by assumption) (ihTryL _ _)
        | exact absurd (by assumption) (ihTryI _ _)
        | exact absurd (by assumption) (parseImageT_ne_err _ _ (checkT_intro2 _ _ _ (by assumption) (by assumption)))
        | exact absurd (by assumption) (parseNewlineT_ne_err _ _ (checkT_intro2 _ _ _ (by assumption) (by assumption)))
    · intro tks cur h hc
      simp only [parseBoldF] at hc
      repeat' split at hc
      all_goals first
        | exact ParseRes.noConfusion hc
        | exact absurd (by assumption) (consumeT_ne_err _ _ _ (by assumption))
        | exact absurd (by assumption) (ihSpanB _ _)
    · intro tks cur hc
      simp only [spanBoldLoopF] at hc
      repeat' split at hc
      all_goals first
        | exact ParseRes.noConfusion hc
        | exact absurd (by assumption) (ihInline _ _)
        | exact absurd (by assumption) (ihSpanB _ _)
    · intro tks cur h hc
      simp only [parseItalicF] at hc
      repeat' split at hc
      all_goals first
        | exact ParseRes.noConfusion hc
        | exact absurd (by assumption) (consumeT_ne_err _ _ _ (by assumption))
        | exact absurd (by assumption) (ihSpanI _ _)
    · intro tks cur hc
      simp only [spanItalicLoopF] at hc
      repeat' split at hc
      all_goals first
        | exact ParseRes.noConfusion hc
        | exact absurd (by assumption) (ihInline _ _)
        | exact absurd (by assumption) (ihSpanI _ _)
    · intro tks cur h hc
      simp only [parseCodeSpanF] at hc
      repeat' split at hc
      all_goals first
        | exact ParseRes.noConfusion hc
        | exact absurd (by assumption) (consumeT_ne_err _ _ _ (by assumption))
        | exact absurd (by assumption) (ihSpanC _ _)
    · intro tks cur hc
      simp only [spanCodeLoopF] at hc
      repeat' split at hc
      all_goals first
        | exact ParseRes.noConfusion hc
        | exact absurd (by assumption) (ihInline _ _)
        | exact absurd (by assumption) (ihSpanC _ _)
    · intro tks cur hc
      simp only [tryParseLinkF] at hc
      repeat' split at hc
      all_goals first
        | exact ParseRes.noConfusion hc
    · intro tks cur hc
      simp only [linkTextLoopF] at hc
      repeat' split at hc
      all_goals first
        | exact ParseRes.noConfusion hc
        | exact absurd (by assumption) (ihInline _ _)
        | exact absurd (by assumption) (ihLText _ _)
    · intro tks cur hc
      simp only [urlLoopF] at hc
      repeat' split at hc
      all_goals first
        | exact ParseRes.noConfusion hc
        | exact absurd (by assumption) (ihUrl _ _)
    · intro tks cur hc
      simp only [altLoopF] at hc
      repeat' split at hc
      all_goals first
        | exact ParseRes.noConfusion hc
        | exact absurd (by assumption) (ihAlt _ _)
    · intro tks cur hc
      simp only [tryParseImageF] at hc
      repeat' split at hc
      all_goals first
        | exact ParseRes.noConfusion hc

/-- C5: the parser is exception-free: for every token sequence and every
fuel bound, `parse` never surfaces the internal `ParseError` (`.err`) — the
`consume` throw is unreachable from `parse`'s dispatch, and the tentative
link/image rules catch their own failures and degrade to plain text. -/
theorem c5_parse_never_throws (tks : List Token) (fuel : Nat) :
    parseF tks fuel ≠ ParseRes.err := by
  intro hc
  simp only [parseF] at hc
  repeat' split at hc
  all_goals first
    | exact ParseRes.noConfusion hc
    | exact absurd (by assumption) ((parser_no_err fuel).1 tks 0)

/-! ## The shape of a parsed document (C10): helper lemmas -/

theorem bnot_false (b : Bool) (h : ¬ ((!b) = true)) : b = true := by
  cases b
  · simp at h
  · rfl

theorem checkT_facts (tks : List Token) (ty : TokenType) (cur : Nat)
    (h : checkT tks ty cur = true) :
    cur < tks.length ∧ (peekT tks cur).type = ty := by
  simp only [checkT, Bool.and_eq_true, Bool.not_eq_true', atEndT,
    decide_eq_false_iff_not, decide_eq_true_eq] at h
  exact ⟨Nat.lt_of_not_le h.1, h.2⟩

theorem checkT_lt_n (tks : List Token) (ty : TokenType) (cur n : Nat)
    (h_len : tks.length = n + 1) (h_eof : (peekT tks n).type = .eof)
    (hty : ty ≠ .eof) (h : checkT tks ty cur = true) : cur < n := by
  obtain ⟨h1, h2⟩ := checkT_facts tks ty cur h
  rcases Nat.lt_or_ge cur n with h3 | h3
  · exact h3
  · have hc : cur = n := by omega
    rw [hc, h_eof] at h2
    exact absurd h2.symm hty

theorem peek_type_lt_n (tks : List Token) (n cur : Nat) (ty : TokenType)
    (h_len : tks.length = n + 1) (h_eof : (peekT tks n).type = .eof)
    (hne : ty ≠ .eof) (ht : (peekT tks cur).type = ty)
    (hcur : cur < tks.length) : cur < n := by
  rcases Nat.lt_or_ge cur n with h | h
  · exact h
  · have hc : cur = n := by omega
    rw [hc, h_eof] at ht
    exact absurd ht.symm hne

theorem consumeT_elim (tks : List Token) (ty : TokenType) (cur : Nat)
    (t : Token) (c : Nat) (h : consumeT tks ty cur = .ok t c) :
    checkT tks ty cur = true ∧ c = cur + 1 := by
  simp only [consumeT] at h
  split at h
  · injection h with h1 h2
    exact ⟨by assumption, h2.symm⟩
  · exact ParseRes.noConfusion h

theorem advanceT_snd_lt (tks : List Token) (cur : Nat) (h : cur < tks.length) :
    (advanceT tks cur).2 = cur + 1 := by
  simp [advanceT, atEndT, Nat.not_le.mpr h]

theorem advanceT_fst (tks : List Token) (cur : Nat) (h : cur < tks.length) :
    (advanceT tks cur).1 = peekT tks cur := by
  simp [advanceT, atEndT, Nat.not_le.mpr h]

theorem consOpt_append (oi : Option PNode) (pre : List PNode) (x : PNode) :
    ∃ pre2, consOpt oi (pre ++ [x]) = pre2 ++ [x] := by
  cases oi with
  | none => exact ⟨pre, rfl⟩
  | some i => exact ⟨i :: pre, rfl⟩

theorem isBlockEnd_of_atEnd (tks : List Token) (cur : Nat)
    (h : tks.length ≤ cur) : isBlockEndT tks cur = true := by
  simp [isBlockEndT, atEndT, h]

theorem inlinesLoop_end (tks : List Token) (fuel cur : Nat) (is : List PNode)
    (c : Nat) (h : tks.length ≤ cur)
    (hok : inlinesLoopF tks fuel cur = .ok is c) : is = [] ∧ c = cur := by
  cases fuel with
  | zero => exact ParseRes.noConfusion hok
  | succ fuel =>
    simp only [inlinesLoopF] at hok
    rw [if_pos (isBlockEnd_of_atEnd tks cur h)] at hok
    injection hok with h1 h2
    exact ⟨h1.symm, h2.symm⟩

theorem blocksLoop_end (tks : List Token) (fuel cur : Nat) (bs : List PNode)
    (c : Nat) (h : tks.length ≤ cur)
    (hok : blocksLoopF tks fuel cur = .ok bs c) : bs = [] ∧ c = cur := by
  cases fuel with
  | zero => exact ParseRes.noConfusion hok
  | succ fuel =>
    have hend : atEndT tks cur = true := by
      simp [atEndT, h]
    simp only [blocksLoopF] at hok
    rw [if_pos hend] at hok
    injection hok with h1 h2
    exact ⟨h1.symm, h2.symm⟩

theorem parseNewlineT_bound (tks : List Token) (n cur : Nat) (t : PNode)
    (c : Nat) (h_len : tks.length = n + 1)
    (h_eof : (peekT tks n).type = .eof)
    (h : parseNewlineT tks cur = .ok t c) : c ≤ n := by
  simp only [parseNewlineT] at h
  split at h
  · exact ParseRes.noConfusion h
  · exact ParseRes.noConfusion h
  · rename_i tok cur1 hcons
    injection h with h1 h2
    obtain ⟨hchk, hc⟩ := consumeT_elim tks _ cur tok cur1 hcons
    have := checkT_lt_n tks _ cur n h_len h_eof (by decide) hchk
    omega

theorem parseHorizontalRuleT_bound (tks : List Token) (n cur : Nat) (t : PNode)
    (c : Nat) (h_len : tks.length = n + 1)
    (h_eof : (peekT tks n).type = .eof)
    (h : parseHorizontalRuleT tks cur = .ok t c) : c ≤ n := by
  simp only [parseHorizontalRuleT] at h
  split at h
  · exact ParseRes.noConfusion h
  · exact ParseRes.noConfusion h
  · rename_i tok cur1 hcons
    injection h with h1 h2
    obtain ⟨hchk, hc⟩ := consumeT_elim tks _ cur tok cur1 hcons
    have := checkT_lt_n tks _ cur n h_len h_eof (by decide) hchk
    omega

theorem parseCodeBlockT_bound (tks : List Token) (n cur : Nat) (t : PNode)
    (c : Nat) (h_len : tks.length = n + 1)
    (h_eof : (peekT tks n).type = .eof)
    (h : parseCodeBlockT tks cur = .ok t c) : c ≤ n := by
  simp only [parseCodeBlockT] at h
  split at h
  · exact ParseRes.noConfusion h
  · exact ParseRes.noConfusion h
  · rename_i tok cur1 hcons
    injection h with h1 h2
    obtain ⟨hchk, hc⟩ := consumeT_elim tks _ cur tok cur1 hcons
    have := checkT_lt_n tks _ cur n h_len h_eof (by decide) hchk
    omega

theorem parseLinkT_bound (tks : List Token) (n cur : Nat) (t : PNode)
    (c : Nat) (h_len : tks.length = n + 1)
    (h_eof : (peekT tks n).type = .eof)
    (h : parseLinkT tks cur = .ok t c) : c ≤ n := by
  simp only [parseLinkT] at h
  split at h
  · exact ParseRes.noConfusion h
  · exact ParseRes.noConfusion h
  · rename_i tok cur1 hcons
    injection h with h1 h2
    obtain ⟨hchk, hc⟩ := consumeT_elim tks _ cur tok cur1 hcons
    have := checkT_lt_n tks _ cur n h_len h_eof (by decide) hchk
    omega

theorem parseImageT_bound (tks : List Token) (n cur : Nat) (t : PNode)
    (c : Nat) (h_len : tks.length = n + 1)
    (h_eof : (peekT tks n).type = .eof)
    (h : parseImageT tks cur = .ok t c) : c ≤ n := by
  simp only [parseImageT] at h
  split at h
  · exact ParseRes.noConfusion h
  · exact ParseRes.noConfusion h
  · rename_i tok cur1 hcons
    injection h with h1 h2
    obtain ⟨hchk, hc⟩ := consumeT_elim tks _ cur tok cur1 hcons
    have := checkT_lt_n tks _ cur n h_len h_eof (by decide) hchk
    omega

theorem parseBoldF_bound (tks : List Token) (n : Nat)
    (h_len : tks.length = n + 1) (h_eof : (peekT tks n).type = .eof) :
    ∀ (fuel cur : Nat) (r : PNode) (c : Nat),
      parseBoldF tks fuel cur = .ok r c → c ≤ n := by
  intro fuel cur r c hok
  cases fuel with
  | zero => exact ParseRes.noConfusion hok
  | succ fuel =>
    simp only [parseBoldF] at hok
    split at hok
    · exact ParseRes.noConfusion hok
    · exact ParseRes.noConfusion hok
    · rename_i startTok cur1 hcons
      obtain ⟨hchk, hc1⟩ := consumeT_elim tks _ cur startTok cur1 hcons
      have hcn : cur < n := checkT_lt_n tks _ cur n h_len h_eof (by decide) hchk
      split at hok
      · exact ParseRes.noConfusion hok
      · exact ParseRes.noConfusion hok
      · rename_i children cur2 hspan
        split at hok
        · split at hok
          · exact ParseRes.noConfusion hok
          · exact ParseRes.noConfusion hok
          · rename_i x cur3 hcons2
            injection hok with h1 h2
            obtain ⟨hchk2, hc3⟩ := consumeT_elim tks _ cur2 x cur3 hcons2
            have := checkT_lt_n tks _ cur2 n h_len h_eof (by decide) hchk2
            omega
        · injection hok with h1 h2
          rw [advanceT_snd_lt tks cur (by omega)] at h2
          omega

theorem parseItalicF_bound (tks : List Token) (n : Nat)
    (h_len : tks.length = n + 1) (h_eof : (peekT tks n).type = .eof) :
    ∀ (fuel cur : Nat) (r : PNode) (c : Nat),
      parseItalicF tks fuel cur = .ok r c → c ≤ n := by
  intro fuel cur r c hok
  cases fuel with
  | zero => exact ParseRes.noConfusion hok
  | succ fuel =>
    simp only [parseItalicF] at hok
    split at hok
    · exact ParseRes.noConfusion hok
    · exact ParseRes.noConfusion hok
    · rename_i startTok cur1 hcons
      obtain ⟨hchk, hc1⟩ := consumeT_elim tks _ cur startTok cur1 hcons
      have hcn : cur < n := checkT_lt_n tks _ cur n h_len h_eof (by decide) hchk
      split at hok
      · exact ParseRes.noConfusion hok
      · exact ParseRes.noConfusion hok
      · rename_i children cur2 hspan
        split at hok
        · split at hok
          · exact ParseRes.noConfusion hok
          · exact ParseRes.noConfusion hok
          · rename_i x cur3 hcons2
            injection hok with h1 h2
            obtain ⟨hchk2, hc3⟩ := consumeT_elim tks _ cur2 x cur3 hcons2
            have := checkT_lt_n tks _ cur2 n h_len h_eof (by decide) hchk2
            omega
        · injection hok with h1 h2
          rw [advanceT_snd_lt tks cur (by omega)] at h2
          omega

theorem parseCodeSpanF_bound (tks : List Token) (n : Nat)
    (h_len : tks.length = n + 1) (h_eof : (peekT tks n).type = .eof) :
    ∀ (fuel cur : Nat) (r : PNode) (c : Nat),
      parseCodeSpanF tks fuel cur = .ok r c → c ≤ n := by
  intro fuel cur r c hok
  cases fuel with
  | zero => exact ParseRes.noConfusion hok
  | succ fuel =>
    simp only [parseCodeSpanF] at hok
    split at hok
    · exact ParseRes.noConfusion hok
    · exact ParseRes.noConfusion hok
    · rename_i startTok cur1 hcons
      obtain ⟨hchk, hc1⟩ := consumeT_elim tks _ cur startTok cur1 hcons
      have hcn : cur < n := checkT_lt_n tks _ cur n h_len h_eof (by decide) hchk
      split at hok
      · exact ParseRes.noConfusion hok
      · exact ParseRes.noConfusion hok
      · rename_i str cur2 hspan
        split at hok
        · split at hok
          · exact ParseRes.noConfusion hok
          · exact ParseRes.noConfusion hok
          · rename_i x cur3 hcons2
            injection hok with h1 h2
            obtain ⟨hchk2, hc3⟩ := consumeT_elim tks _ cur2 x cur3 hcons2
            have := checkT_lt_n tks _ cur2 n h_len h_eof (by decide) hchk2
            omega
        · injection hok with h1 h2
          rw [advanceT_snd_lt tks cur (by omega)] at h2
          omega

theorem tryParseLinkF_cases (tks : List Token) (n : Nat)
    (h_len : tks.length = n + 1) (h_eof : (peekT tks n).type = .eof) :
    ∀ (fuel cur : Nat) (r : Option PNode) (c : Nat),
      tryParseLinkF tks fuel cur = .ok r c →
      (r = none ∧ c = cur) ∨ (∃ x, r = some x ∧ c ≤ n) := by
  intro fuel cur r c hok
  cases fuel with
  | zero => exact ParseRes.noConfusion hok
  | succ fuel =>
    simp only [tryParseLinkF] at hok
    repeat' split at hok
    all_goals try exact ParseRes.noConfusion hok
    all_goals injection hok with h1 h2
    all_goals try exact Or.inl ⟨h1.symm, h2.symm⟩
    rename_i hnc
    have hb := bnot_false _ hnc
    refine Or.inr ⟨_, h1.symm, ?_⟩
    rw [← h2]
    obtain ⟨hlt, -⟩ := checkT_facts _ _ _ hb
    rw [advanceT_snd_lt _ _ hlt]
    exact Nat.succ_le_of_lt (checkT_lt_n _ _ _ _ h_len h_eof (by decide) hb)

theorem tryParseImageF_cases (tks : List Token) (n : Nat)
    (h_len : tks.length = n + 1) (h_eof : (peekT tks n).type = .eof) :
    ∀ (fuel cur : Nat) (r : Option PNode) (c : Nat),
      tryParseImageF tks fuel cur = .ok r c →
      (r = none ∧ c = cur) ∨ (∃ x, r = some x ∧ c ≤ n) := by
  intro fuel cur r c hok
  cases fuel with
  | zero => exact ParseRes.noConfusion hok
  | succ fuel =>
    simp only [tryParseImageF] at hok
    repeat' split at hok
    all_goals try exact ParseRes.noConfusion hok
    all_goals injection hok with h1 h2
    all_goals try exact Or.inl ⟨h1.symm, h2.symm⟩
    rename_i hnc
    have hb := bnot_false _ hnc
    refine Or.inr ⟨_, h1.symm, ?_⟩
    rw [← h2]
    obtain ⟨hlt, -⟩ := checkT_facts _ _ _ hb
    rw [advanceT_snd_lt _ _ hlt]
    exact Nat.succ_le_of_lt (checkT_lt_n _ _ _ _ h_len h_eof (by decide) hb)

/-- The inline layer consumes the trailing end-of-stream token as an empty
text node: an inline that ends exactly at the end of the token array is the
empty text made from the final token, and an inline run that reaches the end
of the array has that empty text as its last element. -/
theorem inline_shape (tks : List Token) (n : Nat)
    (h_len : tks.length = n + 1) (h_eof : (peekT tks n).type = .eof)
    (h_eofv : (peekT tks n).value = []) :
    ∀ fuel : Nat,
      (∀ (cur : Nat) (r : Option PNode) (c : Nat),
        cur < tks.length → parseInlineF tks fuel cur = .ok r c →
        c ≤ tks.length ∧
        (c = tks.length → r = some (createText [] (peekT tks n).position))) ∧
      (∀ (cur : Nat) (is : List PNode) (c : Nat),
        cur ≤ tks.length → inlinesLoopF tks fuel cur = .ok is c →
        c ≤ tks.length ∧
        (c = tks.length → cur < tks.length →
          ∃ pre, is = pre ++ [createText [] (peekT tks n).position])) := by
  intro fuel
  induction fuel with
  | zero =>
    exact ⟨fun _ _ _ _ h => ParseRes.noConfusion h,
      fun _ _ _ _ h => ParseRes.noConfusion h⟩
  | succ fuel ih =>
    obtain ⟨ihI, ihL⟩ := ih
    constructor
    · intro cur r c hcur hok
      simp only [parseInlineF] at hok
      have hend : ¬ (atEndT tks cur = true) := by
        simp only [atEndT, decide_eq_true_eq]
        omega
      rw [if_neg hend] at hok
      split at hok
      · split at hok
        · exact ParseRes.noConfusion hok
        · exact ParseRes.noConfusion hok
        · rename_i nb cb heqb
          injection hok with h1 h2
          have hb := parseBoldF_bound tks n h_len h_eof fuel cur nb cb heqb
          exact ⟨by omega, fun hc => absurd hc (by omega)⟩
      · split at hok
        · exact ParseRes.noConfusion hok
        · exact ParseRes.noConfusion hok
        · rename_i nb cb heqb
          injection hok with h1 h2
          have hb := parseItalicF_bound tks n h_len h_eof fuel cur nb cb heqb
          exact ⟨by omega, fun hc => absurd hc (by omega)⟩
      · split at hok
        · exact ParseRes.noConfusion hok
        · exact ParseRes.noConfusion hok
        · rename_i nb cb heqb
          injection hok with h1 h2
          have hb := parseCodeSpanF_bound tks n h_len h_eof fuel cur nb cb heqb
          exact ⟨by omega, fun hc => absurd hc (by omega)⟩
      · split at hok
        · exact ParseRes.noConfusion hok
        · exact ParseRes.noConfusion hok
        · rename_i nb cb heqb
          injection hok with h1 h2
          have hb := parseLinkT_bound tks n cur nb cb h_len h_eof heqb
          exact ⟨by omega, fun hc => absurd hc (by omega)⟩
      · rename_i htype
        split at hok
        · exact ParseRes.noConfusion hok
        · exact ParseRes.noConfusion hok
        · rename_i l c2 heqt
          injection hok with h1 h2
          rcases tryParseLinkF_cases tks n h_len h_eof fuel cur _ _ heqt with
            ⟨hno, -⟩ | ⟨x, -, hcn⟩
          · exact Option.noConfusion hno
          · exact ⟨by omega, fun hc => absurd hc (by omega)⟩
        · rename_i c2 heqt
          simp only [parseTextT] at hok
          injection hok with h1 h2
          rcases tryParseLinkF_cases tks n h_len h_eof fuel cur _ _ heqt with
            ⟨-, hceq⟩ | ⟨x, hx, -⟩
          · have hcn : cur < n :=
              peek_type_lt_n tks n cur _ h_len h_eof (by decide) htype hcur
            rw [hceq] at h2
            rw [advanceT_snd_lt tks cur (by omega)] at h2
            exact ⟨by omega, fun hc => absurd hc (by omega)⟩
          · exact Option.noConfusion hx
      · rename_i htype
        split at hok
        · exact ParseRes.noConfusion hok
        · exact ParseRes.noConfusion hok
        · rename_i l c2 heqt
          injection hok with h1 h2
          rcases tryParseImageF_cases tks n h_len h_eof fuel cur _ _ heqt with
            ⟨hno, -⟩ | ⟨x, -, hcn⟩
          · exact Option.noConfusion hno
          · exact ⟨by omega, fun hc => absurd hc (by omega)⟩
        · rename_i c2 heqt
          simp only [parseTextT] at hok
          injection hok with h1 h2
          rcases tryParseImageF_cases tks n h_len h_eof fuel cur _ _ heqt with
            ⟨-, hceq⟩ | ⟨x, hx, -⟩
          · have hcn : cur < n :=
              peek_type_lt_n tks n cur _ h_len h_eof (by decide) htype hcur
            rw [hceq] at h2
            rw [advanceT_snd_lt tks cur (by omega)] at h2
            exact ⟨by omega, fun hc => absurd hc (by omega)⟩
          · exact Option.noConfusion hx
      · split at hok
        · exact ParseRes.noConfusion hok
        · exact ParseRes.noConfusion hok
        · rename_i nb cb heqb
          injection hok with h1 h2
          have hb := parseImageT_bound tks n cur nb cb h_len h_eof heqb
          exact ⟨by omega, fun hc => absurd hc (by omega)⟩
      · split at hok
        · exact ParseRes.noConfusion hok
        · exact ParseRes.noConfusion hok
        · rename_i nb cb heqb
          injection hok with h1 h2
          have hb := parseNewlineT_bound tks n cur nb cb h_len h_eof heqb
          exact ⟨by omega, fun hc => absurd hc (by omega)⟩
      · simp only [parseTextT] at hok
        injection hok with h1 h2
        rw [advanceT_snd_lt tks cur hcur] at h2
        refine ⟨by omega, fun hc => ?_⟩
        have hcn : cur = n := by omega
        rw [← h1, advanceT_fst tks cur hcur, hcn, h_eofv]
    · intro cur is c hcur hok
      simp only [inlinesLoopF] at hok
      split at hok
      · injection hok with h1 h2
        refine ⟨by omega, fun hc hlt => absurd hc (by omega)⟩
      · rename_i hbe
        have hcl : cur < tks.length := by
          by_contra hge
          exact hbe (isBlockEnd_of_atEnd tks cur (by omega))
        split at hok
        · exact ParseRes.noConfusion hok
        · exact ParseRes.noConfusion hok
        · rename_i oi cur2 heqI
          split at hok
          · exact ParseRes.noConfusion hok
          · exact ParseRes.noConfusion hok
          · rename_i is2 c3 heqL
            injection hok with h1 h2
            obtain ⟨hb2, hend2⟩ := ihI cur oi cur2 hcl heqI
            obtain ⟨hb3, hend3⟩ := ihL cur2 is2 c3 hb2 heqL
            refine ⟨by omega, fun hc hlt => ?_⟩
            rcases Nat.lt_or_ge cur2 tks.length with hlt2 | hge2
            · obtain ⟨pre, hpre⟩ := hend3 (by omega) hlt2
              rw [← h1, hpre]
              exact consOpt_append oi pre _
            · have hoi := hend2 (by omega)
              obtain ⟨h1', h2'⟩ := inlinesLoop_end tks fuel cur2 is2 c3 hge2 heqL
              rw [← h1, hoi, h1']
              exact ⟨[], rfl⟩

/-- A paragraph whose inline run reaches the end of the token array ends in
the empty text node made from the final end-of-stream token. -/
theorem parseParagraphF_shape (tks : List Token) (n : Nat)
    (h_len : tks.length = n + 1) (h_eof : (peekT tks n).type = .eof)
    (h_eofv : (peekT tks n).value = []) :
    ∀ (fuel cur : Nat) (r : PNode) (c : Nat),
      cur < tks.length → parseParagraphF tks fuel cur = .ok r c →
      c ≤ tks.length ∧ (c = tks.length →
        ∃ cs ppos,
          r = createParagraph (cs ++ [createText [] (peekT tks n).position]) ppos) := by
  intro fuel cur r c hcur hok
  cases fuel with
  | zero => exact ParseRes.noConfusion hok
  | succ fuel =>
    simp only [parseParagraphF] at hok
    split at hok
    · exact ParseRes.noConfusion hok
    · exact ParseRes.noConfusion hok
    · rename_i children cur2 heq
      injection hok with h1 h2
      obtain ⟨hb, hendc⟩ :=
        (inline_shape tks n h_len h_eof h_eofv fuel).2 cur children cur2
          (by omega) heq
      refine ⟨by omega, fun hc => ?_⟩
      obtain ⟨pre, hpre⟩ := hendc (by omega) hcur
      exact ⟨pre, (peekT tks cur).position, by rw [← h1, hpre]⟩

/-- Block dispatch and the block loop: fed a token array whose final token is
the end-of-stream token and which contains no heading, quote or list-item
token before it, a completed block loop ends exactly at the array length, and
its last block is a paragraph ending in the empty text node made from the
end-of-stream token. -/
theorem blocks_shape (tks : List Token) (n : Nat)
    (h_len : tks.length = n + 1) (h_eof : (peekT tks n).type = .eof)
    (h_eofv : (peekT tks n).value = [])
    (h_mid : ∀ i, i < n → (peekT tks i).type ≠ .heading ∧
      (peekT tks i).type ≠ .quote ∧ (peekT tks i).type ≠ .list_item) :
    ∀ fuel : Nat,
      (∀ (cur : Nat) (r : Option PNode) (c : Nat),
        cur < tks.length → parseBlockF tks fuel cur = .ok r c →
        c ≤ tks.length ∧ (c = tks.length →
          ∃ p, r = some p ∧ ∃ cs ppos,
            p = createParagraph (cs ++ [createText [] (peekT tks n).position]) ppos)) ∧
      (∀ (cur : Nat) (bs : List PNode) (c : Nat),
        cur ≤ tks.length → blocksLoopF tks fuel cur = .ok bs c →
        c = tks.length ∧ (cur < tks.length →
          ∃ pre cs ppos,
            bs = pre ++
              [createParagraph (cs ++ [createText [] (peekT tks n).position]) ppos])) := by
  intro fuel
  induction fuel with
  | zero =>
    exact ⟨fun _ _ _ _ h => ParseRes.noConfusion h,
      fun _ _ _ _ h => ParseRes.noConfusion h⟩
  | succ fuel ih =>
    obtain ⟨ihB, ihD⟩ := ih
    constructor
    · intro cur r c hcur hok
      simp only [parseBlockF] at hok
      have hend : ¬ (atEndT tks cur = true) := by
        simp only [atEndT, decide_eq_true_eq]
        omega
      rw [if_neg hend] at hok
      split at hok
      · rename_i htype
        exfalso
        rcases Nat.lt_or_ge cur n with h | h
        · exact (h_mid cur h).1 htype
        · have hc : cur = n := by omega
          rw [hc, h_eof] at htype
          exact TokenType.noConfusion htype
      · split at hok
        · exact ParseRes.noConfusion hok
        · exact ParseRes.noConfusion hok
        · rename_i nb cb heqb
          injection hok with h1 h2
          have hb := parseCodeBlockT_bound tks n cur nb cb h_len h_eof heqb
          exact ⟨by omega, fun hc => absurd hc (by omega)⟩
      · rename_i htype
        exfalso
        rcases Nat.lt_or_ge cur n with h | h
        · exact (h_mid cur h).2.1 htype
        · have hc : cur = n := by omega
          rw [hc, h_eof] at htype
          exact TokenType.noConfusion htype
      · rename_i htype
        exfalso
        rcases Nat.lt_or_ge cur n with h | h
        · exact (h_mid cur h).2.2 htype
        · have hc : cur = n := by omega
          rw [hc, h_eof] at htype
          exact TokenType.noConfusion htype
      · split at hok
        · exact ParseRes.noConfusion hok
        · exact ParseRes.noConfusion hok
        · rename_i nb cb heqb
          injection hok with h1 h2
          have hb := parseHorizontalRuleT_bound tks n cur nb cb h_len h_eof heqb
          exact ⟨by omega, fun hc => absurd hc (by omega)⟩
      · split at hok
        · exact ParseRes.noConfusion hok
        · exact ParseRes.noConfusion hok
        · rename_i nb cb heqb
          injection hok with h1 h2
          obtain ⟨hb, hendp⟩ :=
            parseParagraphF_shape tks n h_len h_eof h_eofv fuel cur nb cb hcur heqb
          refine ⟨by omega, fun hc => ?_⟩
          obtain ⟨cs, ppos, hp⟩ := hendp (by omega)
          exact ⟨nb, h1.symm, cs, ppos, hp⟩
    · intro cur bs c hcur hok
      simp only [blocksLoopF] at hok
      split at hok
      · rename_i hae
        injection hok with h1 h2
        have hlen_le : tks.length ≤ cur := by
          simpa [atEndT, decide_eq_true_eq] using hae
        refine ⟨by omega, fun hlt => absurd hlt (by omega)⟩
      · rename_i hae
        have hclt : cur < tks.length := by
          by_contra hge
          exact hae (by simp only [atEndT, decide_eq_true_eq]; omega)
        split at hok
        · rename_i hnl
          have hn1 : cur < n := checkT_lt_n tks _ cur n h_len h_eof (by decide) hnl
          obtain ⟨hc, hendd⟩ := ihD (cur + 1) bs c (by omega) hok
          exact ⟨hc, fun _ => hendd (by omega)⟩
        · split at hok
          · exact ParseRes.noConfusion hok
          · exact ParseRes.noConfusion hok
          · rename_i ob cur2 heqB
            split at hok
            · exact ParseRes.noConfusion hok
            · exact ParseRes.noConfusion hok
            · rename_i bs2 c3 heqD
              injection hok with h1 h2
              obtain ⟨hb2, hend2⟩ := ihB cur ob cur2 hclt heqB
              obtain ⟨hc3, hend3⟩ := ihD cur2 bs2 c3 hb2 heqD
              refine ⟨by omega, fun hlt => ?_⟩
              rcases Nat.lt_or_ge cur2 tks.length with hlt2 | hge2
              · obtain ⟨pre, cs, ppos, hpre⟩ := hend3 hlt2
                rw [← h1, hpre]
                obtain ⟨pre2, hp2⟩ := consOpt_append ob pre _
                exact ⟨pre2, cs, ppos, hp2⟩
              · have hc2 : cur2 = tks.length := by omega
                obtain ⟨p, hp, cs, ppos, hpp⟩ := hend2 hc2
                obtain ⟨hbs2, -⟩ := blocksLoop_end tks fuel cur2 bs2 c3 hge2 heqD
                rw [← h1, hp, hbs2, hpp]
                exact ⟨[], cs, ppos, rfl⟩

theorem lexShape_single (st : LexSt) (ts : List Token)
    (h1 : [createToken st .eof []] = ts) :
    ∃ n, ts.length = n + 1 ∧
      (peekT ts n).type = .eof ∧ (peekT ts n).value = [] ∧
      ∀ i, i < n → (peekT ts i).type ≠ .heading ∧ (peekT ts i).type ≠ .quote ∧
        (peekT ts i).type ≠ .list_item := by
  refine ⟨0, ?_, ?_, ?_, fun i hi => absurd hi (Nat.not_lt_zero i)⟩ <;>
    rw [← h1] <;> rfl

/-- Every terminating run of the tokenize loop produces a token list whose
last token is the zero-length end-of-stream token and whose earlier tokens
are never of the heading, quote or list-item type (the lexer has no scan
rule emitting those). -/
theorem lexLoop_shape : ∀ (fuel : Nat) (st : LexSt) (ts : List Token),
    1 ≤ st.column → lexLoop st fuel = some ts →
    ∃ n, ts.length = n + 1 ∧
      (peekT ts n).type = .eof ∧ (peekT ts n).value = [] ∧
      ∀ i, i < n → (peekT ts i).type ≠ .heading ∧ (peekT ts i).type ≠ .quote ∧
        (peekT ts i).type ≠ .list_item := by
  intro fuel
  induction fuel with
  | zero =>
    intro st ts hcol hok
    simp only [lexLoop] at hok
    split at hok
    · injection hok with h1
      exact lexShape_single st ts h1
    · exact Option.noConfusion hok
  | succ fuel ih =>
    intro st ts hcol hok
    simp only [lexLoop] at hok
    split at hok
    · injection hok with h1
      exact lexShape_single st ts h1
    · rename_i hne
      have hend : st.atEnd = false := by
        cases hval : st.atEnd
        · rfl
        · exact absurd hval hne
      obtain ⟨t, st2, hscan⟩ : ∃ t st2, scanToken st = (t, st2) := ⟨_, _, rfl⟩
      rw [hscan] at hok
      cases hrec : lexLoop st2 fuel with
      | none => rw [hrec] at hok; exact Option.noConfusion hok
      | some ts' =>
        rw [hrec] at hok
        simp only [Option.map] at hok
        injection hok with h1
        obtain ⟨hin, hcat, hoff, hc1, hty1, hty2, hty3, hty4, hrest1, hrest2⟩ :=
          scanToken_step st hend hcol t st2 hscan
        obtain ⟨n', hlen', heof', hval', hmid'⟩ := ih st2 ts' hc1 hrec
        refine ⟨n' + 1, ?_, ?_, ?_, ?_⟩
        · rw [← h1]
          simp [List.length_cons, hlen']
        · rw [← h1]
          simpa [peekT] using heof'
        · rw [← h1]
          simpa [peekT] using hval'
        · intro i hi
          rw [← h1]
          cases i with
          | zero =>
            exact ⟨by simpa [peekT] using hty2, by simpa [peekT] using hty3,
              by simpa [peekT] using hty4⟩
          | succ j =>
            have hj : j < n' := by omega
            obtain ⟨hm1, hm2, hm3⟩ := hmid' j hj
            exact ⟨by simpa [peekT] using hm1, by simpa [peekT] using hm2,
              by simpa [peekT] using hm3⟩

/-- The token-shape fact lifted to `tokenize`. -/
theorem tokenizeF_shape (fuel : Nat) (s : List Char) (ts : List Token)
    (hok : tokenizeF fuel s = some ts) :
    ∃ n, ts.length = n + 1 ∧
      (peekT ts n).type = .eof ∧ (peekT ts n).value = [] ∧
      ∀ i, i < n → (peekT ts i).type ≠ .heading ∧ (peekT ts i).type ≠ .quote ∧
        (peekT ts i).type ≠ .list_item := by
  exact lexLoop_shape fuel ⟨normalizeNewlines s, 1, 1, 0⟩ ts (Nat.le_refl 1) hok

/-- C10: parse consumes the zero-length end-of-stream token as an ordinary
text token: whenever tokenize returns a token list and parse completes on
it, the document's last block is a paragraph whose final child is a text
node with empty value; in particular parse(tokenize('')) is a document
containing one paragraph with a single empty text node, not an empty
document. -/
theorem c10_eof_as_text_trailing_paragraph :
    (∀ (s : List Char) (fuelL fuelP : Nat) (ts : List Token) (d : PNode) (c : Nat),
      tokenizeF fuelL s = some ts →
      parseF ts fuelP = .ok d c →
      ∃ pre cs ppos tpos,
        d = createDocument
              (pre ++ [createParagraph (cs ++ [createText [] tpos]) ppos])
              ⟨1, 1, 0⟩) ∧
    parsePipeline 9 [] =
      .ok (createDocument [createParagraph [createText [] ⟨1, 1, 0⟩] ⟨1, 1, 0⟩]
            ⟨1, 1, 0⟩) 1 := by
  constructor
  · intro s fuelL fuelP ts d c htok hparse
    obtain ⟨n, hlen, heof, hval, hmid⟩ := tokenizeF_shape fuelL s ts htok
    simp only [parseF] at hparse
    split at hparse
    · exact ParseRes.noConfusion hparse
    · exact ParseRes.noConfusion hparse
    · rename_i bs cur2 heq
      injection hparse with h1 h2
      obtain ⟨hc2, hblocks⟩ :=
        (blocks_shape ts n hlen heof hval hmid fuelP).2 0 bs cur2 (by omega) heq
      obtain ⟨pre, cs, ppos, hbs⟩ := hblocks (by omega)
      exact ⟨pre, cs, ppos, (peekT ts n).position, by rw [← h1, hbs]⟩
  · rfl

theorem c10_eof_as_text_trailing_paragraph_witness :
    tokenizeF 9 [] = some [⟨.eof, [], ⟨1, 1, 0⟩, 0, []⟩] ∧
    parseF [⟨.eof, [], ⟨1, 1, 0⟩, 0, []⟩] 9 =
      .ok (createDocument [createParagraph [createText [] ⟨1, 1, 0⟩] ⟨1, 1, 0⟩]
            ⟨1, 1, 0⟩) 1 ∧
    ∃ pre cs ppos tpos,
      createDocument [createParagraph [createText [] ⟨1, 1, 0⟩] ⟨1, 1, 0⟩]
          ⟨1, 1, 0⟩ =
        createDocument
          (pre ++ [createParagraph (cs ++ [createText [] tpos]) ppos])
          ⟨1, 1, 0⟩ :=
  ⟨rfl, rfl,
    c10_eof_as_text_trailing_paragraph.1 [] 9 9
      [⟨.eof, [], ⟨1, 1, 0⟩, 0, []⟩]
      (createDocument [createParagraph [createText [] ⟨1, 1, 0⟩] ⟨1, 1, 0⟩]
        ⟨1, 1, 0⟩) 1 rfl rfl⟩

end MdSpec
